import Mathlib

/-!
# Verification of the SEO generation pipeline (`src/main.py`)

Shallow embedding of the pipeline in `src/main.py`:

* Python strings are modelled as `String`/`List Char`; `str.lower`, `str.strip`,
  `str.split`, `str.replace`, `in` and the two regex substitutions used by the
  code are modelled by executable list functions below.
* Python floats (the similarity ratio and the `0.80` threshold) are modelled
  exactly as rationals `ℚ`; every float that the code manipulates here is a
  ratio of small integers, so no rounding behaviour is observable.
* `difflib.SequenceMatcher(None, a, b).ratio()` is modelled by `pyRatio`:
  the Ratcliff/Obershelp algorithm exactly as implemented by
  `find_longest_match` (longest matching block, ties broken by lowest start in
  `a`, then lowest start in `b`, recursing on both sides), including the
  default `autojunk` heuristic of `__chain_b`: when `len(b) >= 200`, every
  character occurring more than `len(b)//100 + 1` times in `b` is dropped
  from the index `b2j` and cannot be matched by the block scan.  Since the
  matcher is constructed with `isjunk=None`, the junk set `bjunk` is empty,
  so the post-scan extension loops of `find_longest_match` ("Extend the best
  by non-junk elements on each end", guarded by `not isbjunk(...)`) extend
  the found block over *any* equal characters, and the final matching-junk
  loops never fire; both phases are modelled.
* The Cerebras client is modelled as an oracle `ℕ → CallResult` giving the
  outcome of each successive request; `time.sleep` is modelled by recording
  the requested delays.  File/CSV I/O and prompt construction (which only
  influence the opaque request text) are outside the model.

Recursive scanners (`stripTags`, `replace`, the matcher) use explicit fuel
(always instantiated with the input length, which is an upper bound for the
number of steps) so that every definition computes by kernel reduction.
-/

/-! ## Python string primitives -/

/-- The six ASCII whitespace characters of Python's `str.strip` / `\s`. -/
def pyWs (c : Char) : Bool :=
  c = ' ' || c = '\t' || c = '\n' || c = '\r' || c = '\x0b' || c = '\x0c'

/-- `str.lower` (ASCII; every string manipulated by the claims is ASCII). -/
def pyLower (l : List Char) : List Char := l.map Char.toLower

/-- Remove trailing Python whitespace. -/
def pyRstrip (l : List Char) : List Char := (l.reverse.dropWhile pyWs).reverse

/-- `str.strip()`. -/
def pyStrip (l : List Char) : List Char := pyRstrip (l.dropWhile pyWs)

/-- `str.strip()` on `String`. -/
def pyStripStr (s : String) : String := ⟨pyStrip s.data⟩

/-- Python's substring test `pat in l`. -/
def containsSub (pat : List Char) : List Char → Bool
  | [] => pat.isEmpty
  | c :: rest => pat.isPrefixOf (c :: rest) || containsSub pat rest

/-- `str.split("\n")`. -/
def splitLines : List Char → List (List Char)
  | [] => [[]]
  | c :: rest =>
    if c = '\n' then [] :: splitLines rest
    else
      match splitLines rest with
      | [] => [[c]]
      | h :: t => (c :: h) :: t

/-- `line.split(":", 1)[1]`: everything after the first colon (the call sites
are guarded by a `startswith` check that guarantees a colon is present). -/
def afterFirstColon (l : List Char) : List Char :=
  (l.dropWhile (fun c => c ≠ ':')).drop 1

/-! ## `difflib.SequenceMatcher` ratio -/

/-- Length of the longest common prefix of two character lists. -/
def commonPrefixLen : List Char → List Char → ℕ
  | x :: xs, y :: ys => if x = y then commonPrefixLen xs ys + 1 else 0
  | _, _ => 0

/-- The `autojunk` test of `SequenceMatcher.__chain_b` (defaults `isjunk=None`,
`autojunk=True`): when the second sequence `b` has at least 200 elements,
every element occurring more than `len(b)//100 + 1` times is deleted from the
index `b2j`, so the block scan can no longer match it.  The test is fixed by
the full second string handed to `SequenceMatcher` and does not change while
`get_matching_blocks` recurses into subregions. -/
def bpopular (b : List Char) (c : Char) : Bool :=
  decide (200 ≤ b.length) && decide (b.length / 100 + 1 < b.count c)

/-- Longest common prefix avoiding junked characters: the inner loop of
`find_longest_match` only discovers `a[i] == b[j]` through `b2j`, which lacks
the popular keys, so a matching run of the scan stops at the first popular
character. -/
def commonNPLen (pj : Char → Bool) : List Char → List Char → ℕ
  | x :: xs, y :: ys =>
    if x = y ∧ pj y = false then commonNPLen pj xs ys + 1 else 0
  | _, _ => 0

/-- Length of the popular-free matching run of `a` and `b` starting at
positions `i`, `j`. -/
def runLen (pj : Char → Bool) (a b : List Char) (i j : ℕ) : ℕ :=
  commonNPLen pj (a.drop i) (b.drop j)

/-- All candidate block starts, in the discovery order of `find_longest_match`
(outer loop over `a`-positions, inner loop over `b`-positions). -/
def allStarts (a b : List Char) : List (ℕ × ℕ) :=
  (List.range a.length).flatMap (fun i => (List.range b.length).map (fun j => (i, j)))

/-- One step of the longest-block scan: keep the first block of strictly
greatest length (`find_longest_match` updates only on `k > bestsize`). -/
def stepBB (pj : Char → Bool) (a b : List Char) (best : ℕ × ℕ × ℕ) (p : ℕ × ℕ) :
    ℕ × ℕ × ℕ :=
  let k := runLen pj a b p.1 p.2
  if best.2.2 < k then (p.1, p.2, k) else best

/-- The scan phase of `find_longest_match`: the longest popular-free matching
block `(i, j, size)`, with ties broken by lowest `i`, then lowest `j`;
`(0, 0, 0)` when there is no popular-free match. -/
def bestBlock (pj : Char → Bool) (a b : List Char) : ℕ × ℕ × ℕ :=
  (allStarts a b).foldl (stepBB pj a b) (0, 0, 0)

/-- `find_longest_match`: the scan result extended on both ends ("Extend the
best by non-junk elements on each end").  With `isjunk=None` the junk set
`self.bjunk` is empty, so the guard `not isbjunk(...)` always holds and the
extension walks over *any* equal characters, popular ones included; the
final matching-junk loops (guarded by `isbjunk(...)`) never fire.  The
backward steps count the common suffix of the prefixes before the block, the
forward steps the common prefix after it; the forward start `besti+bestsize`
is unchanged by the backward extension. -/
def findLongestMatch (pj : Char → Bool) (a b : List Char) : ℕ × ℕ × ℕ :=
  let t := bestBlock pj a b
  let e := commonPrefixLen (a.take t.1).reverse (b.take t.2.1).reverse
  let f := commonPrefixLen (a.drop (t.1 + t.2.2)) (b.drop (t.2.1 + t.2.2))
  (t.1 - e, t.2.1 - e, t.2.2 + e + f)

/-- Total number of matched characters (`sum of block sizes` in
`get_matching_blocks`), by the recursive divide-and-conquer of
`SequenceMatcher`; the popularity test `pj` stays the one computed from the
original full second string; the fuel is consumed once per recursion level. -/
def matchesFuel (pj : Char → Bool) : ℕ → List Char → List Char → ℕ
  | 0, _, _ => 0
  | fuel + 1, a, b =>
    let t := findLongestMatch pj a b
    if t.2.2 = 0 then 0
    else
      matchesFuel pj fuel (a.take t.1) (b.take t.2.1) + t.2.2 +
        matchesFuel pj fuel (a.drop (t.1 + t.2.2)) (b.drop (t.2.1 + t.2.2))

/-- Matched characters of `a` and `b` (fuel `a.length` always suffices: every
recursive call strictly shortens the first list). -/
def matchesCount (a b : List Char) : ℕ := matchesFuel (bpopular b) a.length a b

/-- `SequenceMatcher.ratio()`: `2*M/T`, and `1.0` when both strings are
empty (`_calculate_ratio`). -/
def pyRatio (a b : List Char) : ℚ :=
  if a.length + b.length = 0 then 1
  else (2 * (matchesCount a b : ℚ)) / ((a.length : ℚ) + (b.length : ℚ))

/-! ## Similarity gate (`check_similarity`) -/

/-- `SIMILARITY_THRESHOLD = 0.80`. -/
def SIMILARITY_THRESHOLD : ℚ := 0.80

/-- The score compared by the gate: ratio of the two lowercased strings, in
the argument order used by the code (`new_desc` first). -/
def simScore (x e : String) : ℚ := pyRatio (pyLower x.data) (pyLower e.data)

/-- Loop body of `check_similarity`: update `(worst_score, worst_match)` when
the new score is strictly greater. -/
def simStep (f : String → ℚ) (acc : ℚ × String) (e : String) : ℚ × String :=
  if acc.1 < f e then (f e, e) else acc

/-- `check_similarity(new_desc, existing_descriptions)` returning
`(is_ok, worst_score, worst_match)`. -/
def check_similarity (new_desc : String) (existing : List String) : Bool × ℚ × String :=
  if existing.isEmpty then (true, 0, "")
  else
    let ws := existing.foldl (simStep (simScore new_desc)) (0, "")
    (decide (ws.1 < SIMILARITY_THRESHOLD), ws.1, ws.2)

/-! ## Response parser / sanitizer (`parse_seo_response`) -/

/-- `MAX_SEO_TITLE_LENGTH = 70`. -/
def MAX_SEO_TITLE_LENGTH : ℕ := 70

/-- `MAX_SEO_DESCRIPTION_LENGTH = 320`. -/
def MAX_SEO_DESCRIPTION_LENGTH : ℕ := 320

/-- The character class `[^>]` of the tag regex. -/
def notGt (c : Char) : Bool := c ≠ '>'

/-- `re.sub(r"<[^>]+>", "", ·)`: left-to-right scan; at a `'<'` whose next
`'>'` exists and is not immediately adjacent, delete through that `'>'` and
continue after it, otherwise keep the character and move on. -/
def stripTagsFuel : ℕ → List Char → List Char
  | 0, l => l
  | _ + 1, [] => []
  | fuel + 1, c :: rest =>
    if c = '<' ∧ (rest.takeWhile notGt).isEmpty = false ∧
        (rest.dropWhile notGt).isEmpty = false then
      stripTagsFuel fuel ((rest.dropWhile notGt).drop 1)
    else c :: stripTagsFuel fuel rest

/-- Tag removal with sufficient fuel (each step consumes at least one input
character). -/
def stripTags (l : List Char) : List Char := stripTagsFuel l.length l

/-- `.replace('"', "").replace("'", "")`. -/
def removeQuotes (l : List Char) : List Char :=
  l.filter (fun c => ¬(c = '"' ∨ c = '\''))

/-- Python `str.replace(old, new)` (all non-overlapping occurrences, left to
right), with fuel. -/
def replaceFuel (old new : List Char) : ℕ → List Char → List Char
  | 0, l => l
  | fuel + 1, l =>
    match l with
    | [] => []
    | c :: rest =>
      if old.isPrefixOf (c :: rest) then new ++ replaceFuel old new fuel ((c :: rest).drop old.length)
      else c :: replaceFuel old new fuel rest

/-- Python `str.replace(old, new)` (the fuel `l.length` always suffices for a
non-empty `old`). -/
def pyReplace (old new l : List Char) : List Char := replaceFuel old new l.length l

/-- `re.sub(r"\s+", " ", ·)`: collapse every whitespace run into one space. -/
def collapseWs : List Char → List Char
  | [] => []
  | [c] => if pyWs c then [' '] else [c]
  | c :: d :: rest =>
    if pyWs c ∧ pyWs d then collapseWs (d :: rest)
    else (if pyWs c then ' ' else c) :: collapseWs (d :: rest)

/-- The three banned-term substitutions of `parse_seo_response`, in source
order. -/
def applyBanned (l : List Char) : List Char :=
  pyReplace "Faux Leather".data "Vinyl".data
    (pyReplace "Faux leather".data "Vinyl".data
      (pyReplace "faux leather".data "vinyl".data l))

/-- The line loop of `parse_seo_response`: fold over the stripped non-empty
lines, updating the pending `(seo_title, seo_description)` pair. -/
def parseLines (original_title : List Char) (lines : List (List Char)) :
    List Char × List Char :=
  lines.foldl
    (fun acc line =>
      if ("seo title:".data).isPrefixOf (pyLower line) then
        (pyStrip (afterFirstColon line), acc.2)
      else if ("seo description:".data).isPrefixOf (pyLower line) then
        (acc.1, pyStrip (afterFirstColon line))
      else acc)
    (original_title, [])

/-- The raw extracted description, before any sanitation. -/
def rawDesc (response_text original_title : String) : List Char :=
  (parseLines original_title.data
    (((splitLines (pyStrip response_text.data)).map pyStrip).filter
      (fun l => ¬l.isEmpty))).2

/-- The description after tag removal and quote removal (steps 3–4). -/
def sanitizedDesc (response_text original_title : String) : List Char :=
  removeQuotes (stripTags (rawDesc response_text original_title))

/-- The description after the banned-term substitutions (step 5), before
whitespace collapsing. -/
def substitutedDesc (response_text original_title : String) : List Char :=
  applyBanned (sanitizedDesc response_text original_title)

/-- `parse_seo_response(response_text, original_title)`. -/
def parse_seo_response (response_text original_title : String) : String × String :=
  let seo_title := original_title.data
  let d := pyStrip (collapseWs (substitutedDesc response_text original_title))
  let seo_title :=
    if MAX_SEO_TITLE_LENGTH < seo_title.length then seo_title.take MAX_SEO_TITLE_LENGTH
    else seo_title
  let d :=
    if MAX_SEO_DESCRIPTION_LENGTH < d.length then d.take MAX_SEO_DESCRIPTION_LENGTH
    else d
  (⟨seo_title⟩, ⟨d⟩)

/-- Does `l` contain a substring matching `<[^>]+>`?  (At some `'<'`, the next
`'>'` exists and is not immediately adjacent.) -/
def hasTag : List Char → Bool
  | [] => false
  | c :: rest =>
    if c = '<' ∧ (rest.takeWhile notGt).isEmpty = false ∧
        (rest.dropWhile notGt).isEmpty = false then true
    else hasTag rest

/-- Invariant established by tag removal and maintained by the rest of the
sanitiser: every `'<'` is either immediately followed by `'>'` or has no
`'>'` anywhere after it — so no substring can match `<[^>]+>`. -/
def tagSafe : List Char → Prop
  | [] => True
  | c :: rest => (c = '<' → (∃ r, rest = '>' :: r) ∨ '>' ∉ rest) ∧ tagSafe rest

/-! ## Category detector (`detect_product_type`) -/

/-- A catalog row; only the fields read by the pipeline are modelled
(`Handle`, `Title`, `Body (HTML)`, `Type`, `Tags`, `SEO Title`,
`SEO Description`); all other columns are opaque pass-through data. -/
structure Row where
  handle : String := ""
  title : String := ""
  bodyHTML : String := ""
  prodType : String := ""
  tags : String := ""
  seoTitle : String := ""
  seoDescription : String := ""
deriving DecidableEq

/-- `PRODUCT_TYPE_KEYWORDS["wall_clocks"]`. -/
def wallKeywords : List String :=
  ["clock", "wall clock", "timepiece", "hour hand", "minute hand",
   "quartz", "pendulum", "analog", "dial", "roman numeral",
   "sweep movement", "ticking", "clock face", "clock hands"]

/-- `PRODUCT_TYPE_KEYWORDS["water_bottles"]`. -/
def waterKeywords : List String :=
  ["water bottle", "bottle", "tumbler", "hydration", "flask",
   "drink bottle", "sports bottle", "insulated bottle", "bpa free",
   "stainless steel bottle", "reusable bottle", "thermos",
   "beverage container", "sippy", "straw lid"]

/-- `PRODUCT_TYPE_KEYWORDS["lamp_shades"]`. -/
def lampKeywords : List String :=
  ["lamp shade", "lampshade", "shade", "lamp", "light shade",
   "lighting", "pendant shade", "table lamp", "floor lamp",
   "drum shade", "cone shade", "bell shade", "fabric shade",
   "linen shade", "silk shade"]

/-- The lowercased concatenation `Title + " " + Body (HTML) + " " + Type +
" " + Tags` scanned for keywords. -/
def rowText (r : Row) : List Char :=
  pyLower (r.title ++ " " ++ r.bodyHTML ++ " " ++ r.prodType ++ " " ++ r.tags).data

/-- The score a category accumulates in `detect_product_type`: one point per
`(row, keyword)` pair whose keyword occurs in the row text (the code adds `1`
per *present* keyword, not per occurrence). -/
def presenceScore (kws : List String) (rows : List Row) : ℕ :=
  (rows.map (fun r => kws.countP (fun kw => containsSub kw.data (rowText r)))).sum

/-- The score dictionary, keyed like the Python `scores` dict. -/
def scoreOf (rows : List Row) (t : String) : ℕ :=
  if t = "wall_clocks" then presenceScore wallKeywords rows
  else if t = "water_bottles" then presenceScore waterKeywords rows
  else if t = "lamp_shades" then presenceScore lampKeywords rows
  else 0

/-- Python `max(iterable, key=f)`: first element attaining the maximum. -/
def pyMaxByKey (f : String → ℕ) : List String → String
  | [] => ""
  | k :: ks => ks.foldl (fun best x => if f best < f x then x else best) k

/-- The category names in declaration (= dict iteration) order. -/
def categoryNames : List String := ["wall_clocks", "water_bottles", "lamp_shades"]

/-- `detect_product_type(rows)`. -/
def detect_product_type (rows : List Row) : String :=
  let detected := pyMaxByKey (scoreOf rows) categoryNames
  if scoreOf rows detected = 0 then "wall_clocks" else detected

/-- Number of substring occurrences of `pat` in `text` (all start positions). -/
def occCount (pat text : List Char) : ℕ :=
  (List.range text.length).countP (fun i => pat.isPrefixOf (text.drop i))

/-- Following the spec's words (for comparison with `presenceScore`, which is
what the code computes): "count substring occurrences of every keyword in
that category's keyword list across all rows". -/
def specOccurrenceScore (kws : List String) (rows : List Row) : ℕ :=
  (rows.map (fun r => (kws.map (fun kw => occCount kw.data (rowText r))).sum)).sum

/-- Following the spec's words: the category with the highest total
occurrence count, ties by declaration order, default on an all-zero score. -/
def specOccurrenceDetect (rows : List Row) : String :=
  let f := fun t =>
    if t = "wall_clocks" then specOccurrenceScore wallKeywords rows
    else if t = "water_bottles" then specOccurrenceScore waterKeywords rows
    else if t = "lamp_shades" then specOccurrenceScore lampKeywords rows
    else 0
  let detected := pyMaxByKey f categoryNames
  if f detected = 0 then "wall_clocks" else detected

/-! ## Generation orchestrator (`generate_seo`) and main loop -/

/-- `MAX_RETRIES = 3`. -/
def MAX_RETRIES : ℕ := 3

/-- `API_DELAY = 5.0` seconds. -/
def API_DELAY : ℚ := 5.0

/-- Outcome of one request to the text-generation service: the response text,
or a raised exception carrying its message string. -/
inductive CallResult where
  | ok (text : String)
  | exn (msg : String)
deriving DecidableEq

/-- The transient-error test of `generate_seo`:
`"503" in err or "502" in err or "429" in err or "server" in err.lower() or
"too_many" in err.lower()`. -/
def isTransient (e : String) : Bool :=
  containsSub "503".data e.data || containsSub "502".data e.data ||
    containsSub "429".data e.data || containsSub "server".data (pyLower e.data) ||
    containsSub "too_many".data (pyLower e.data)

/-- The inner `for server_retry in range(5)` loop: returns the response or
the re-raised error, with the number of requests issued and the list of
`time.sleep` delays (in seconds), in order.  `svc` maps the index of each
successive request to its outcome. -/
def serverLoop (svc : ℕ → CallResult) : ℕ → List ℕ → Except String String × ℕ × List ℚ
  | _, [] => (Except.error "response never assigned", 0, [])
  | idx, r :: rest =>
    match svc idx with
    | CallResult.ok t => (Except.ok t, 1, [])
    | CallResult.exn e =>
      if isTransient e then
        if r = 4 then (Except.error e, 1, [((r : ℚ) + 1) * 8])
        else
          (let res := serverLoop svc (idx + 1) rest
           (res.1, res.2.1 + 1, ((r : ℚ) + 1) * 8 :: res.2.2))
      else (Except.error e, 1, [])

/-- The outer `for attempt in range(MAX_RETRIES)` loop of `generate_seo`:
returns `(title, description)` or the propagated exception, with the total
number of requests issued and all sleeps.  After a rejected final attempt the
last candidate is returned anyway. -/
def genLoop (svc : ℕ → CallResult) (title : String) (pool : List String) :
    ℕ → List ℕ → Except String (String × String) × ℕ × List ℚ
  | _, [] => (Except.error "seo_title never assigned", 0, [])
  | idx, _attempt :: rest =>
    let sl := serverLoop svc idx [0, 1, 2, 3, 4]
    match sl.1 with
    | Except.error e => (Except.error e, sl.2.1, sl.2.2)
    | Except.ok text =>
      let p := parse_seo_response text title
      if (check_similarity p.2 pool).1 then (Except.ok p, sl.2.1, sl.2.2)
      else if rest.isEmpty then (Except.ok p, sl.2.1, sl.2.2 ++ [API_DELAY])
      else
        let res := genLoop svc title pool (idx + sl.2.1) rest
        (res.1, sl.2.1 + res.2.1, sl.2.2 ++ API_DELAY :: res.2.2)

/-- `generate_seo(client, title, body_html, existing_descriptions, ptype)`.
The prompt (built from `body_html`, the product type and the random variation
hint) only determines the opaque request text, which the service oracle `svc`
already accounts for, so it is not modelled. -/
def generate_seo (svc : ℕ → CallResult) (title : String) (pool : List String) :
    Except String (String × String) × ℕ × List ℚ :=
  genLoop svc title pool 0 (List.range MAX_RETRIES)

/-- The mutable state of the `main` processing loop. -/
structure RunState where
  rows : List Row
  pool : List String
  processed : List String
  saves : List (List String)
deriving DecidableEq

/-- `set.add` on the processed-handles set (modelled as a duplicate-free
list). -/
def insertHandle (h : String) (l : List String) : List String :=
  if h ∈ l then l else l ++ [h]

/-- Per-item report: `(handle, requests issued, accepted description?)`. -/
abbrev ItemReport : Type := String × ℕ × Option String

/-- Processing of one selected item inside `main`'s `for` loop: on success the
row is updated in place, the description joins the pool, the handle joins the
progress set and the set is persisted; on a raised error nothing changes. -/
def stepItem (svc : ℕ → CallResult) (st : RunState) (item : ℕ × Row) :
    RunState × ItemReport :=
  let title := pyStripStr item.2.title
  let handle := pyStripStr item.2.handle
  let g := generate_seo svc title st.pool
  match g.1 with
  | Except.ok td =>
    ({ rows := st.rows.set item.1 { item.2 with seoTitle := td.1, seoDescription := td.2 },
       pool := st.pool ++ [td.2],
       processed := insertHandle handle st.processed,
       saves := st.saves ++ [insertHandle handle st.processed] },
     (handle, g.2.1, some td.2))
  | Except.error _ => (st, (handle, g.2.1, none))

/-- The whole per-item loop; `svcFor` gives each item position its service
oracle. -/
def runItems (svcFor : ℕ → ℕ → CallResult) :
    ℕ → RunState → List (ℕ × Row) → RunState × List ItemReport
  | _, st, [] => (st, [])
  | pos, st, item :: rest =>
    let s := stepItem (svcFor pos) st item
    let r := runItems svcFor (pos + 1) s.1 rest
    (r.1, s.2 :: r.2)

/-- `products_to_process`: the rows selected for generation, with their
indices.  Normal mode skips rows with existing SEO descriptions; both modes
require a non-empty title and skip handles in `processed`. -/
def selectItems (overwrite : Bool) (processed : List String) (rows : List Row) :
    List (ℕ × Row) :=
  rows.enum.filter (fun p =>
    if overwrite then
      decide (pyStripStr p.2.title ≠ "" ∧ pyStripStr p.2.handle ∉ processed)
    else
      decide (pyStripStr p.2.title ≠ "" ∧ pyStripStr p.2.seoDescription = "" ∧
        pyStripStr p.2.handle ∉ processed))

/-- `main` after configuration checks: clear the progress set in overwrite
mode, select the items, seed the similarity pool with the pre-existing SEO
descriptions (normal mode only), and run the loop. -/
def mainRun (svcFor : ℕ → ℕ → CallResult) (overwrite : Bool)
    (processed0 : List String) (rows : List Row) : RunState × List ItemReport :=
  let processed := if overwrite then [] else processed0
  let items := selectItems overwrite processed rows
  let pool0 := rows.filterMap (fun r =>
    if pyStripStr r.seoDescription ≠ "" ∧ overwrite = false then
      some (pyStripStr r.seoDescription)
    else none)
  runItems svcFor 0 { rows := rows, pool := pool0, processed := processed, saves := [] } items

/-! ## Concrete inputs used by counterexamples and witnesses -/

/-- A row whose text contains the keyword `"clock"` four times (one presence
point, four occurrences) while `"lampshade"` scores three presence points
(`"lampshade"`, `"shade"`, `"lamp"`) but only three occurrences. -/
def c5Row : Row := { title := "clock clock clock clock lampshade" }

/-- A row with only the keyword `"clock"` in its text. -/
def clockRow : Row := { title := "clock", handle := "h1" }

/-- A service oracle that always fails with a non-transient error. -/
def svcBoom : ℕ → CallResult := fun _ => CallResult.exn "boom"

/-- A service oracle that always returns the same well-formed response. -/
def svcHello : ℕ → CallResult :=
  fun _ => CallResult.ok "SEO Description: hello world"

/-- A service oracle that always fails with an HTTP 503 message. -/
def svc503 : ℕ → CallResult := fun _ => CallResult.exn "http error 503"

/-- A minimal processable row with handle `"a"`. -/
def rowA : Row := { handle := "a", title := "T" }

/-- A row that already carries an SEO description: skipped by normal-mode
selection, but its description seeds the similarity pool. -/
def rowD : Row := { handle := "d", title := "D", seoDescription := "dd" }

/-- The run state `main` builds for the normal-mode run over `[rowD, rowA]`
with an empty persisted progress set: the pool is seeded with `rowD`'s
pre-existing description before any item is processed. -/
def c7State : RunState :=
  { rows := [rowD, rowA], pool := ["dd"], processed := [], saves := [] }

/-! # Theorems

## Basic facts about the Ratcliff/Obershelp model -/

theorem commonPrefixLen_self (a : List Char) : commonPrefixLen a a = a.length := by
  induction a with
  | nil => rfl
  | cons c t ih => simp [commonPrefixLen, ih]

theorem commonPrefixLen_le_left (a b : List Char) : commonPrefixLen a b ≤ a.length := by
  induction a generalizing b with
  | nil => cases b <;> simp [commonPrefixLen]
  | cons c t ih =>
    cases b with
    | nil => simp [commonPrefixLen]
    | cons d u =>
      by_cases h : c = d
      · simpa [commonPrefixLen, h] using ih u
      · simp [commonPrefixLen, h]

theorem commonNPLen_no_junk (pj : Char → Bool) (hpj : ∀ c, pj c = false) :
    ∀ a b : List Char, commonNPLen pj a b = commonPrefixLen a b := by
  intro a
  induction a with
  | nil => intro b; cases b <;> rfl
  | cons x xs ih =>
    intro b
    cases b with
    | nil => rfl
    | cons y ys =>
      simp only [commonNPLen, commonPrefixLen, hpj y, and_true, ih ys]

theorem commonNPLen_le_left (pj : Char → Bool) :
    ∀ a b : List Char, commonNPLen pj a b ≤ a.length := by
  intro a
  induction a with
  | nil => intro b; cases b <;> simp [commonNPLen]
  | cons x xs ih =>
    intro b
    cases b with
    | nil => simp [commonNPLen]
    | cons y ys =>
      by_cases h : x = y ∧ pj y = false
      · simpa [commonNPLen, h] using ih ys
      · simp [commonNPLen, h]

theorem runLen_le_left (pj : Char → Bool) (a b : List Char) (i j : ℕ) :
    runLen pj a b i j ≤ a.length := by
  unfold runLen
  refine le_trans (commonNPLen_le_left _ _ _) ?_
  rw [List.length_drop]
  omega

theorem foldBB_fix (pj : Char → Bool) (a b : List Char) (best : ℕ × ℕ × ℕ)
    (h : ∀ p : ℕ × ℕ, runLen pj a b p.1 p.2 ≤ best.2.2) :
    ∀ L : List (ℕ × ℕ), L.foldl (stepBB pj a b) best = best := by
  intro L
  induction L with
  | nil => rfl
  | cons p t ih =>
    rw [List.foldl_cons]
    have hs : stepBB pj a b best p = best := by
      unfold stepBB
      simp only []
      rw [if_neg (not_lt.mpr (h p))]
    rw [hs]; exact ih

theorem allStarts_cons (a b : List Char) (ha : a ≠ []) (hb : b ≠ []) :
    ∃ L, allStarts a b = (0, 0) :: L := by
  obtain ⟨x, xs, rfl⟩ := List.exists_cons_of_ne_nil ha
  obtain ⟨y, ys, rfl⟩ := List.exists_cons_of_ne_nil hb
  unfold allStarts
  rw [List.length_cons, List.length_cons, List.range_succ_eq_map,
    List.range_succ_eq_map, List.flatMap_cons, List.map_cons, List.cons_append]
  exact ⟨_, rfl⟩

theorem bestBlock_self (pj : Char → Bool) (hpj : ∀ c, pj c = false) (a : List Char)
    (h : a ≠ []) : bestBlock pj a a = (0, 0, a.length) := by
  obtain ⟨L, hL⟩ := allStarts_cons a a h h
  unfold bestBlock
  rw [hL, List.foldl_cons]
  have h1 : stepBB pj a a (0, 0, 0) (0, 0) = (0, 0, a.length) := by
    unfold stepBB runLen
    simp [commonNPLen_no_junk pj hpj, commonPrefixLen_self, List.length_pos.mpr h]
  rw [h1]
  exact foldBB_fix pj a a (0, 0, a.length) (fun p => runLen_le_left pj a a p.1 p.2) L

theorem findLongestMatch_self (pj : Char → Bool) (hpj : ∀ c, pj c = false)
    (a : List Char) (h : a ≠ []) : findLongestMatch pj a a = (0, 0, a.length) := by
  unfold findLongestMatch
  rw [bestBlock_self pj hpj a h]
  simp [commonPrefixLen]

theorem matchesFuel_nil_left (pj : Char → Bool) (f : ℕ) (b : List Char) :
    matchesFuel pj f [] b = 0 := by
  cases f with
  | zero => rfl
  | succ g =>
    have hbb : findLongestMatch pj [] b = (0, 0, 0) := by
      unfold findLongestMatch bestBlock allStarts
      simp [commonPrefixLen]
    unfold matchesFuel
    simp [hbb]

theorem matchesFuel_self (pj : Char → Bool) (hpj : ∀ c, pj c = false) (f : ℕ) :
    ∀ a : List Char, a.length ≤ f → matchesFuel pj f a a = a.length := by
  induction f with
  | zero =>
    intro a ha
    have : a = [] := List.eq_nil_of_length_eq_zero (Nat.le_zero.mp ha)
    subst this; rfl
  | succ g ih =>
    intro a ha
    by_cases h : a = []
    · subst h; exact matchesFuel_nil_left _ _ _
    · have hne : a.length ≠ 0 := by simpa [List.length_eq_zero] using h
      unfold matchesFuel
      rw [findLongestMatch_self pj hpj a h]
      simp [hne, matchesFuel_nil_left]

theorem bpopular_short (b : List Char) (h : b.length < 200) :
    ∀ c, bpopular b c = false := by
  intro c
  unfold bpopular
  have hn : ¬ 200 ≤ b.length := by omega
  simp [hn]

theorem matchesCount_self (a : List Char) (h : a.length < 200) :
    matchesCount a a = a.length :=
  matchesFuel_self (bpopular a) (bpopular_short a h) a.length a le_rfl

theorem pyRatio_self (a : List Char) (h : a.length < 200) : pyRatio a a = 1 := by
  unfold pyRatio
  by_cases h0 : a.length + a.length = 0
  · rw [if_pos h0]
  · rw [if_neg h0, matchesCount_self a h]
    have hz : (a.length : ℚ) ≠ 0 := by
      exact_mod_cast fun hc => h0 (by omega)
    field_simp
    ring

theorem pyRatio_nonneg (a b : List Char) : 0 ≤ pyRatio a b := by
  unfold pyRatio
  by_cases h : a.length + b.length = 0
  · rw [if_pos h]; norm_num
  · rw [if_neg h]
    positivity

theorem simScore_nonneg (x e : String) : 0 ≤ simScore x e := pyRatio_nonneg _ _

theorem pyLower_length (l : List Char) : (pyLower l).length = l.length :=
  List.length_map l Char.toLower

theorem simScore_self (x : String) (h : x.length < 200) : simScore x x = 1 := by
  unfold simScore
  refine pyRatio_self _ ?_
  rw [pyLower_length]
  exact h

theorem simScore_comm_of_lower_eq {x y : String}
    (h : pyLower x.data = pyLower y.data) : simScore x y = simScore y x := by
  unfold simScore
  rw [h]

/-! ## Facts about the `check_similarity` fold -/

theorem foldSim_init_le (f : String → ℚ) :
    ∀ (l : List String) (acc : ℚ × String), acc.1 ≤ (l.foldl (simStep f) acc).1 := by
  intro l
  induction l with
  | nil => intro acc; exact le_rfl
  | cons x t ih =>
    intro acc
    rw [List.foldl_cons]
    refine le_trans ?_ (ih (simStep f acc x))
    unfold simStep
    by_cases hc : acc.1 < f x
    · rw [if_pos hc]; exact le_of_lt hc
    · rw [if_neg hc]

theorem foldSim_mem_le (f : String → ℚ) :
    ∀ (l : List String) (acc : ℚ × String) (e : String),
      e ∈ l → f e ≤ (l.foldl (simStep f) acc).1 := by
  intro l
  induction l with
  | nil => intro acc e he; simp at he
  | cons x t ih =>
    intro acc e he
    rw [List.foldl_cons]
    rcases List.mem_cons.mp he with rfl | ht
    · refine le_trans ?_ (foldSim_init_le f t (simStep f acc e))
      unfold simStep
      by_cases hc : acc.1 < f e
      · rw [if_pos hc]
      · rw [if_neg hc]; exact le_of_not_lt hc
    · exact ih (simStep f acc x) e ht

theorem foldSim_cases (f : String → ℚ) :
    ∀ (l : List String) (acc : ℚ × String),
      l.foldl (simStep f) acc = acc ∨
        ∃ e ∈ l, (l.foldl (simStep f) acc).1 = f e ∧ (l.foldl (simStep f) acc).2 = e ∧
          acc.1 < (l.foldl (simStep f) acc).1 := by
  intro l
  induction l with
  | nil => intro acc; left; rfl
  | cons x t ih =>
    intro acc
    rw [List.foldl_cons]
    by_cases hc : acc.1 < f x
    · have hs : simStep f acc x = (f x, x) := by unfold simStep; rw [if_pos hc]
      rw [hs]
      rcases ih (f x, x) with h | ⟨e, he, h1, h2, h3⟩
      · right
        exact ⟨x, List.mem_cons_self x t, by rw [h], by rw [h], by rw [h]; exact hc⟩
      · right
        exact ⟨e, List.mem_cons_of_mem x he, h1, h2, lt_trans hc h3⟩
    · have hs : simStep f acc x = acc := by unfold simStep; rw [if_neg hc]
      rw [hs]
      rcases ih acc with h | ⟨e, he, h1, h2, h3⟩
      · left; exact h
      · right; exact ⟨e, List.mem_cons_of_mem x he, h1, h2, h3⟩

/-! ## Concrete evaluation helpers for the gate -/

theorem pyRatio_concrete (a b : List Char) (m la lb : ℕ) (hm : matchesCount a b = m)
    (hla : a.length = la) (hlb : b.length = lb) (h : la + lb ≠ 0) :
    pyRatio a b = (2 * m : ℚ) / ((la : ℚ) + lb) := by
  unfold pyRatio
  rw [hm, hla, hlb, if_neg h]

theorem simScore_a_b : simScore "a" "b" = 0 := by
  unfold simScore
  rw [pyRatio_concrete _ _ 0 1 1 (by decide) (by decide) (by decide) (by norm_num)]
  norm_num

theorem simScore_tide_diet : simScore "tide" "diet" = 1 / 4 := by
  unfold simScore
  rw [pyRatio_concrete _ _ 1 4 4 (by decide) (by decide) (by decide) (by norm_num)]
  norm_num

theorem simScore_diet_tide : simScore "diet" "tide" = 1 / 2 := by
  unfold simScore
  rw [pyRatio_concrete _ _ 2 4 4 (by decide) (by decide) (by decide) (by norm_num)]
  norm_num

theorem check_single_pos (x e : String) (h : 0 < simScore x e) :
    check_similarity x [e] =
      (decide (simScore x e < SIMILARITY_THRESHOLD), simScore x e, e) := by
  unfold check_similarity
  simp [simStep, h]

theorem check_single_zero (x e : String) (h : simScore x e = 0) :
    check_similarity x [e] = (true, 0, "") := by
  have hth : (0 : ℚ) < SIMILARITY_THRESHOLD := by norm_num [SIMILARITY_THRESHOLD]
  unfold check_similarity
  simp [simStep, h, hth]

/-! ## Claim C2 -/

/-- C2 counterexample: at candidate `"a"` and pool `["b"]` the maximum score
is `0.0` and the code reports `worst_match = ""`, which is not a pool member,
so the claimed "the pool member achieving the maximum is reported regardless
of verdict" fails (the rest of the run is as claimed: accepted, score `0`). -/
theorem c2_counterexample :
    (check_similarity "a" ["b"]).2.2 ∉ (["b"] : List String) ∧
      check_similarity "a" ["b"] = (true, 0, "") := by
  have h := check_single_zero "a" "b" simScore_a_b
  constructor
  · rw [h]; decide
  · exact h

/-- C2 (amended): `check(x, [])` accepts with score `0`; `check(x, [x])`
rejects with score `1` whenever `x` has fewer than 200 characters (for longer
strings the default `autojunk` heuristic of `SequenceMatcher` excludes
characters occurring more than `len//100 + 1` times from the block scan, so
scores involving pool strings of 200 or more characters are distorted); for a
non-empty pool the verdict is acceptance iff every pool member scores
strictly below the `0.80` threshold, the reported score is the maximum score
over the pool (an upper bound that is either `0` or attained), and the member
attaining it is reported whenever the maximum is positive — when the maximum
is `0` the reported match is the empty string, which need not belong to the
pool. -/
theorem c2_theorem (x : String) (pool : List String) :
    check_similarity x [] = (true, 0, "") ∧
    (x.length < 200 → check_similarity x [x] = (false, 1, x)) ∧
    (pool ≠ [] →
      ((check_similarity x pool).1 = true ↔
        ∀ e ∈ pool, simScore x e < SIMILARITY_THRESHOLD) ∧
      (∀ e ∈ pool, simScore x e ≤ (check_similarity x pool).2.1) ∧
      ((check_similarity x pool).2.1 = 0 ∨
        ∃ e ∈ pool, simScore x e = (check_similarity x pool).2.1) ∧
      (0 < (check_similarity x pool).2.1 →
        (check_similarity x pool).2.2 ∈ pool ∧
          simScore x ((check_similarity x pool).2.2) = (check_similarity x pool).2.1) ∧
      ((check_similarity x pool).2.1 = 0 → (check_similarity x pool).2.2 = "")) := by
  refine ⟨rfl, ?_, ?_⟩
  · intro hlen
    have h1 : simScore x x = 1 := simScore_self x hlen
    have h := check_single_pos x x (by rw [h1]; norm_num)
    rw [h, h1]
    norm_num [SIMILARITY_THRESHOLD]
  · intro hpool
    have hne : pool.isEmpty = false := by
      cases pool with
      | nil => exact absurd rfl hpool
      | cons a t => rfl
    have hck : check_similarity x pool =
        (decide ((pool.foldl (simStep (simScore x)) (0, "")).1 < SIMILARITY_THRESHOLD),
          (pool.foldl (simStep (simScore x)) (0, "")).1,
          (pool.foldl (simStep (simScore x)) (0, "")).2) := by
      unfold check_similarity
      rw [hne]
      simp
    have hub := foldSim_mem_le (simScore x) pool (0, "") 
    have hcases := foldSim_cases (simScore x) pool (0, "")
    refine ⟨?_, ?_, ?_, ?_, ?_⟩
    · rw [hck]
      simp only [decide_eq_true_eq]
      constructor
      · intro hlt e he
        exact lt_of_le_of_lt (hub e he) hlt
      · intro hall
        rcases hcases with h | ⟨e, he, h1, _, _⟩
        · rw [h]; norm_num [SIMILARITY_THRESHOLD]
        · rw [h1]
          exact hall e he
    · intro e he
      rw [hck]
      exact hub e he
    · rw [hck]
      rcases hcases with h | ⟨e, he, h1, _, _⟩
      · left; rw [h]
      · right; exact ⟨e, he, h1.symm⟩
    · rw [hck]
      intro hpos
      rcases hcases with h | ⟨e, he, h1, h2, _⟩
      · rw [h] at hpos; norm_num at hpos
      · rw [h1, h2]; exact ⟨he, rfl⟩
    · rw [hck]
      intro hz
      rcases hcases with h | ⟨e, he, h1, h2, h3⟩
      · rw [h]
      · rw [hz] at h3; norm_num at h3
  
/-- C2 witness: the self-rejection bullet applied at the 2-character candidate
`"aa"`, and the amended acceptance characterisation applied at candidate
`"aa"` and pool `["ab"]`. -/
theorem c2_witness :
    check_similarity "aa" ["aa"] = (false, 1, "aa") ∧
      ((check_similarity "aa" ["ab"]).1 = true ↔
        ∀ e ∈ ["ab"], simScore "aa" e < SIMILARITY_THRESHOLD) :=
  ⟨( c2_theorem "aa" ["aa"]).2.1 (by decide),
    ((( c2_theorem "aa" ["ab"]).2.2 (by decide)).1)⟩

/-! ## Claim C9 -/

/-- C9 counterexample: the score is not symmetric.  For `x = "tide"` and
`y = "diet"` the code reports score `1/4` for `check("tide", ["diet"])` but
`1/2` for `check("diet", ["tide"])` (`SequenceMatcher.ratio` is order
dependent: its greedy longest-block recursion matches only `"t"` one way but
`"d"` and `"e"` the other way). -/
theorem c9_counterexample :
    (check_similarity "tide" ["diet"]).2.1 ≠ (check_similarity "diet" ["tide"]).2.1 := by
  have h1 := check_single_pos "tide" "diet" (by rw [simScore_tide_diet]; norm_num)
  have h2 := check_single_pos "diet" "tide" (by rw [simScore_diet_tide]; norm_num)
  rw [h1, h2, simScore_tide_diet, simScore_diet_tide]
  norm_num

/-- C9 (amended): the reported score agrees in both comparison orders
whenever the two lowercased strings are equal (both comparisons then run the
ratio on the same pair of equal strings); in general the ratio is *not*
symmetric, as `c9_counterexample` shows. -/
theorem c9_theorem (x y : String) (h : pyLower x.data = pyLower y.data) :
    (check_similarity x [y]).2.1 = (check_similarity y [x]).2.1 := by
  have hs : simScore x y = simScore y x := simScore_comm_of_lower_eq h
  by_cases hp : 0 < simScore x y
  · rw [check_single_pos x y hp, check_single_pos y x (hs ▸ hp)]
    exact hs
  · have hz : simScore x y = 0 := le_antisymm (not_lt.mp hp) (simScore_nonneg x y)
    rw [check_single_zero x y hz, check_single_zero y x (hs ▸ hz)]

/-- C9 witness: the amended symmetry applied at `x = "Ab"`, `y = "aB"`. -/
theorem c9_witness :
    (check_similarity "Ab" ["aB"]).2.1 = (check_similarity "aB" ["Ab"]).2.1 :=
  c9_theorem "Ab" "aB" (by decide)

/-! ## Claim C1 -/

/-- C1 counterexample: for a 71-character original title the parser does not
return the original title unchanged — after forcing the title to the
original, the 70-character cap truncates it. -/
theorem c1_counterexample :
    (parse_seo_response "SEO Title: other" ⟨List.replicate 71 'a'⟩).1 ≠
      (⟨List.replicate 71 'a'⟩ : String) := by decide

/-- C1 (amended): for every raw response text and original title the parser
returns the original item title truncated to the 70-character cap —
independent of any title line the raw response supplies; in particular the
title is returned exactly unchanged whenever it has at most 70 characters. -/
theorem c1_theorem (resp title : String) :
    ((parse_seo_response resp title).1).data = title.data.take MAX_SEO_TITLE_LENGTH := by
  unfold parse_seo_response
  by_cases h : MAX_SEO_TITLE_LENGTH < title.data.length
  · simp [h]
  · simp [h]

/-! ## Claim C5 -/

theorem scoreOf_wall (rows : List Row) :
    scoreOf rows "wall_clocks" = presenceScore wallKeywords rows := rfl

theorem scoreOf_water (rows : List Row) :
    scoreOf rows "water_bottles" = presenceScore waterKeywords rows := rfl

theorem scoreOf_lamp (rows : List Row) :
    scoreOf rows "lamp_shades" = presenceScore lampKeywords rows := rfl

/-- C5 counterexample: the detector does not return the category with the
maximal total *occurrence* count.  On `c5Row`, occurrence counts are
`wall_clocks = 4` (four `"clock"`s), `lamp_shades = 3`, so the spec's
occurrence argmax is `"wall_clocks"`, but the code scores keyword *presence*
(`wall_clocks = 1`, `lamp_shades = 3`) and returns `"lamp_shades"`. -/
theorem c5_counterexample :
    detect_product_type [c5Row] ≠ specOccurrenceDetect [c5Row] ∧
      detect_product_type [c5Row] = "lamp_shades" ∧
      specOccurrenceDetect [c5Row] = "wall_clocks" := by decide

/-- C5 (amended): the detector returns the category whose total count of
*rows-containing-keyword pairs* (one point per keyword present in a row's
concatenated lowercased title/body/type/tags, not per occurrence) is maximal,
breaking ties by first declaration order; when the maximal score is zero it
returns the fixed default `"wall_clocks"` and never fails; when exactly one
category has a non-zero score, that category is returned. -/
theorem c5_theorem (rows : List Row) :
    (detect_product_type rows = "wall_clocks" ∨ detect_product_type rows = "water_bottles" ∨
      detect_product_type rows = "lamp_shades") ∧
    (∀ c ∈ categoryNames, scoreOf rows c ≤ scoreOf rows (detect_product_type rows)) ∧
    (detect_product_type rows = "water_bottles" →
      presenceScore wallKeywords rows < presenceScore waterKeywords rows) ∧
    (detect_product_type rows = "lamp_shades" →
      presenceScore wallKeywords rows < presenceScore lampKeywords rows ∧
        presenceScore waterKeywords rows < presenceScore lampKeywords rows) ∧
    (presenceScore wallKeywords rows = 0 ∧ presenceScore waterKeywords rows = 0 ∧
        presenceScore lampKeywords rows = 0 → detect_product_type rows = "wall_clocks") ∧
    (presenceScore wallKeywords rows ≠ 0 ∧ presenceScore waterKeywords rows = 0 ∧
        presenceScore lampKeywords rows = 0 → detect_product_type rows = "wall_clocks") ∧
    (presenceScore waterKeywords rows ≠ 0 ∧ presenceScore wallKeywords rows = 0 ∧
        presenceScore lampKeywords rows = 0 → detect_product_type rows = "water_bottles") ∧
    (presenceScore lampKeywords rows ≠ 0 ∧ presenceScore wallKeywords rows = 0 ∧
        presenceScore waterKeywords rows = 0 → detect_product_type rows = "lamp_shades") := by
  unfold detect_product_type pyMaxByKey categoryNames
  simp only [List.foldl_cons, List.foldl_nil]
  split_ifs with h1 h2 h3 h4 h5 h6 h7 <;>
    simp only [scoreOf_wall, scoreOf_water, scoreOf_lamp] at * <;>
    refine ⟨by decide, ?_, ?_, ?_, ?_, ?_, ?_, ?_⟩ <;>
    first
      | (intro c hc
         simp only [List.mem_cons, List.mem_singleton, List.not_mem_nil, or_false] at hc
         rcases hc with rfl | rfl | rfl <;>
           simp only [scoreOf_wall, scoreOf_water, scoreOf_lamp] <;> omega)
      | (intro hx
         first
           | trivial
           | exact absurd hx (by decide)
           | omega)

/-- C5 witness: the amended characterisation applied to a single row whose
only keyword hit is `"clock"`, so the unique non-zero category is returned. -/
theorem c5_witness : detect_product_type [clockRow] = "wall_clocks" :=
  (c5_theorem [clockRow]).2.2.2.2.2.1 (by decide)

/-! ## Orchestrator helper lemmas -/

theorem serverLoop_ok (svc : ℕ → CallResult) (idx : ℕ) (t : String) (r : ℕ)
    (rest : List ℕ) (h : svc idx = CallResult.ok t) :
    serverLoop svc idx (r :: rest) = (Except.ok t, 1, []) := by
  unfold serverLoop
  rw [h]

theorem genLoop_reject_cont (svc : ℕ → CallResult) (title : String) (pool : List String)
    (idx : ℕ) (t : String) (a : ℕ) (rest : List ℕ) (h : svc idx = CallResult.ok t)
    (hrej : (check_similarity (parse_seo_response t title).2 pool).1 = false)
    (hne : rest.isEmpty = false) :
    genLoop svc title pool idx (a :: rest) =
      ((genLoop svc title pool (idx + 1) rest).1,
        1 + (genLoop svc title pool (idx + 1) rest).2.1,
        API_DELAY :: (genLoop svc title pool (idx + 1) rest).2.2) := by
  simp only [genLoop]
  rw [serverLoop_ok svc idx t 0 [1, 2, 3, 4] h]
  simp [hrej, hne]

theorem genLoop_reject_last (svc : ℕ → CallResult) (title : String) (pool : List String)
    (idx : ℕ) (t : String) (a : ℕ) (h : svc idx = CallResult.ok t)
    (hrej : (check_similarity (parse_seo_response t title).2 pool).1 = false) :
    genLoop svc title pool idx [a] =
      (Except.ok (parse_seo_response t title), 1, [API_DELAY]) := by
  simp only [genLoop]
  rw [serverLoop_ok svc idx t 0 [1, 2, 3, 4] h]
  simp [hrej]

theorem genLoop_accept (svc : ℕ → CallResult) (title : String) (pool : List String)
    (idx : ℕ) (t : String) (a : ℕ) (rest : List ℕ) (h : svc idx = CallResult.ok t)
    (hacc : (check_similarity (parse_seo_response t title).2 pool).1 = true) :
    genLoop svc title pool idx (a :: rest) =
      (Except.ok (parse_seo_response t title), 1, []) := by
  simp only [genLoop]
  rw [serverLoop_ok svc idx t 0 [1, 2, 3, 4] h]
  simp [hacc]

/-! ## Claim C3 -/

/-- C3 (confirmed): if every service call succeeds and the similarity gate
rejects every candidate, `generate_seo` issues exactly `MAX_RETRIES = 3`
requests and returns the last rejected candidate (best effort) instead of
failing, sleeping the fixed `API_DELAY` after each rejection. -/
theorem c3_theorem (svc : ℕ → CallResult) (title : String) (pool : List String)
    (ts : ℕ → String)
    (hok : ∀ i, i < 3 → svc i = CallResult.ok (ts i))
    (hrej : ∀ i, i < 3 →
      (check_similarity (parse_seo_response (ts i) title).2 pool).1 = false) :
    generate_seo svc title pool =
      (Except.ok (parse_seo_response (ts 2) title), 3, [API_DELAY, API_DELAY, API_DELAY]) := by
  have hR : List.range MAX_RETRIES = [0, 1, 2] := rfl
  unfold generate_seo
  rw [hR]
  rw [genLoop_reject_cont svc title pool 0 (ts 0) 0 [1, 2] (hok 0 (by omega))
    (hrej 0 (by omega)) rfl]
  rw [genLoop_reject_cont svc title pool (0 + 1) (ts 1) 1 [2]
    (by simpa using hok 1 (by omega)) (hrej 1 (by omega)) rfl]
  rw [genLoop_reject_last svc title pool (0 + 1 + 1) (ts 2) 2
    (by simpa using hok 2 (by omega)) (hrej 2 (by omega))]
  simp

/-- The sole response of `svcHello`, once parsed against title `"t"`. -/
theorem parse_hello : parse_seo_response "SEO Description: hello world" "t" =
    ("t", "hello world") := by decide

/-- A candidate identical to the only pool member is rejected by the gate. -/
theorem hello_rejected :
    (check_similarity (parse_seo_response "SEO Description: hello world" "t").2
      ["hello world"]).1 = false := by
  rw [parse_hello]
  have h1 : simScore "hello world" "hello world" = 1 := simScore_self _ (by decide)
  rw [check_single_pos _ _ (by rw [h1]; norm_num), h1]
  norm_num [SIMILARITY_THRESHOLD]

/-- C3 witness: three identical well-formed responses against a pool already
containing the generated description. -/
theorem c3_witness :
    generate_seo svcHello "t" ["hello world"] =
      (Except.ok (parse_seo_response "SEO Description: hello world" "t"), 3,
        [API_DELAY, API_DELAY, API_DELAY]) :=
  c3_theorem svcHello "t" ["hello world"] (fun _ => "SEO Description: hello world")
    (fun _ _ => rfl) (fun _ _ => hello_rejected)

/-! ## Claim C4 -/

theorem serverLoop_transient_step (svc : ℕ → CallResult) (idx : ℕ) (e : String)
    (r : ℕ) (rest : List ℕ) (h : svc idx = CallResult.exn e)
    (ht : isTransient e = true) (hr : r ≠ 4) :
    serverLoop svc idx (r :: rest) =
      ((serverLoop svc (idx + 1) rest).1,
        (serverLoop svc (idx + 1) rest).2.1 + 1,
        ((r : ℚ) + 1) * 8 :: (serverLoop svc (idx + 1) rest).2.2) := by
  simp only [serverLoop]
  rw [h]
  simp [ht, hr]

theorem serverLoop_transient_last (svc : ℕ → CallResult) (idx : ℕ) (e : String)
    (rest : List ℕ) (h : svc idx = CallResult.exn e) (ht : isTransient e = true) :
    serverLoop svc idx (4 :: rest) = (Except.error e, 1, [40]) := by
  simp only [serverLoop]
  rw [h]
  simp [ht]
  norm_num

theorem serverLoop_fatal (svc : ℕ → CallResult) (idx : ℕ) (e : String)
    (r : ℕ) (rest : List ℕ) (h : svc idx = CallResult.exn e)
    (ht : isTransient e = false) :
    serverLoop svc idx (r :: rest) = (Except.error e, 1, []) := by
  simp only [serverLoop]
  rw [h]
  simp [ht]

/-- C4 (confirmed): (i) five consecutive transient failures are retried with
delays `retry_count × 8` seconds (8, 16, 24, 32, 40) and after the fifth the
error is re-raised (fatal for the item), with exactly 5 requests issued;
(ii) a non-transient failure is re-raised immediately after a single request
with no delay; (iii) an item whose `generate_seo` raises leaves the state —
including the progress set — untouched and processing continues with the
remaining items. -/
theorem c4_theorem :
    (∀ (svc : ℕ → CallResult) (idx : ℕ) (es : ℕ → String),
      (∀ k, k < 5 → svc (idx + k) = CallResult.exn (es k)) →
      (∀ k, k < 5 → isTransient (es k) = true) →
      serverLoop svc idx [0, 1, 2, 3, 4] =
        (Except.error (es 4), 5, [8, 16, 24, 32, 40])) ∧
    (∀ (svc : ℕ → CallResult) (idx : ℕ) (e : String),
      svc idx = CallResult.exn e → isTransient e = false →
      serverLoop svc idx [0, 1, 2, 3, 4] = (Except.error e, 1, [])) ∧
    (∀ (svcFor : ℕ → ℕ → CallResult) (pos : ℕ) (st : RunState) (item : ℕ × Row)
        (rest : List (ℕ × Row)) (e : String),
      (generate_seo (svcFor pos) (pyStripStr item.2.title) st.pool).1 = Except.error e →
      (stepItem (svcFor pos) st item).1 = st ∧
        runItems svcFor pos st (item :: rest) =
          ((runItems svcFor (pos + 1) st rest).1,
            (pyStripStr item.2.handle,
              (generate_seo (svcFor pos) (pyStripStr item.2.title) st.pool).2.1, none) ::
              (runItems svcFor (pos + 1) st rest).2)) := by
  refine ⟨?_, ?_, ?_⟩
  · intro svc idx es hfail ht
    have e0 : svc idx = CallResult.exn (es 0) := by simpa using hfail 0 (by omega)
    have e1 : svc (idx + 1) = CallResult.exn (es 1) := hfail 1 (by omega)
    have e2 : svc (idx + 1 + 1) = CallResult.exn (es 2) := hfail 2 (by omega)
    have e3 : svc (idx + 1 + 1 + 1) = CallResult.exn (es 3) := hfail 3 (by omega)
    have e4 : svc (idx + 1 + 1 + 1 + 1) = CallResult.exn (es 4) := hfail 4 (by omega)
    rw [serverLoop_transient_step svc idx (es 0) 0 [1, 2, 3, 4] e0 (ht 0 (by omega))
      (by omega)]
    rw [serverLoop_transient_step svc (idx + 1) (es 1) 1 [2, 3, 4] e1 (ht 1 (by omega))
      (by omega)]
    rw [serverLoop_transient_step svc (idx + 1 + 1) (es 2) 2 [3, 4] e2 (ht 2 (by omega))
      (by omega)]
    rw [serverLoop_transient_step svc (idx + 1 + 1 + 1) (es 3) 3 [4] e3 (ht 3 (by omega))
      (by omega)]
    rw [serverLoop_transient_last svc (idx + 1 + 1 + 1 + 1) (es 4) [] e4 (ht 4 (by omega))]
    norm_num
  · intro svc idx e h ht
    exact serverLoop_fatal svc idx e 0 [1, 2, 3, 4] h ht
  · intro svcFor pos st item rest e herr
    have hs : stepItem (svcFor pos) st item =
        (st, (pyStripStr item.2.handle,
          (generate_seo (svcFor pos) (pyStripStr item.2.title) st.pool).2.1, none)) := by
      simp only [stepItem]
      rw [herr]
    refine ⟨by rw [hs], ?_⟩
    simp only [runItems]
    rw [hs]

/-- C4 witness: (i) five `503` failures with delays 8..40 then fatal; (ii) a
non-transient `"boom"` fatal after one request; (iii) the failing item leaves
the run state unchanged. -/
theorem c4_witness :
    serverLoop svc503 0 [0, 1, 2, 3, 4] =
        (Except.error "http error 503", 5, [8, 16, 24, 32, 40]) ∧
      serverLoop svcBoom 0 [0, 1, 2, 3, 4] = (Except.error "boom", 1, []) ∧
      (stepItem svcBoom ⟨[rowA], [], [], []⟩ (0, rowA)).1 = ⟨[rowA], [], [], []⟩ :=
  ⟨c4_theorem.1 svc503 0 (fun _ => "http error 503") (fun _ _ => rfl)
    (fun _ _ => (by decide : isTransient "http error 503" = true)),
   c4_theorem.2.1 svcBoom 0 "boom" rfl (by decide),
   (c4_theorem.2.2 (fun _ => svcBoom) 0 ⟨[rowA], [], [], []⟩ (0, rowA) [] "boom" rfl).1⟩

/-! ## Claim C10 -/

/-- C10 (confirmed): if `generate_seo` raises for an item, the in-memory rows,
the description pool, the progress set and the persisted snapshots are all
exactly as before the item started; on success — and only then — the row is
rewritten at its index, the description is appended to the pool, the handle
is added to the progress set and the new set is persisted. -/
theorem c10_theorem (svc : ℕ → CallResult) (st : RunState) (item : ℕ × Row) :
    (∀ e, (generate_seo svc (pyStripStr item.2.title) st.pool).1 = Except.error e →
      (stepItem svc st item).1 = st) ∧
    (∀ t d, (generate_seo svc (pyStripStr item.2.title) st.pool).1 = Except.ok (t, d) →
      (stepItem svc st item).1.rows =
          st.rows.set item.1 { item.2 with seoTitle := t, seoDescription := d } ∧
        (stepItem svc st item).1.pool = st.pool ++ [d] ∧
        (stepItem svc st item).1.processed =
          insertHandle (pyStripStr item.2.handle) st.processed ∧
        (stepItem svc st item).1.saves =
          st.saves ++ [insertHandle (pyStripStr item.2.handle) st.processed]) := by
  constructor
  · intro e herr
    simp only [stepItem]
    rw [herr]
  · intro t d hok
    simp only [stepItem]
    rw [hok]
    simp

/-- C10 witness: a failing item (`svcBoom`) leaves the concrete state
unchanged, and a succeeding item (`svcHello`) performs exactly the four
updates. -/
theorem c10_witness :
    (stepItem svcBoom ⟨[rowA], ["x"], ["p"], [["p"]]⟩ (0, rowA)).1 =
        ⟨[rowA], ["x"], ["p"], [["p"]]⟩ ∧
      (stepItem svcHello ⟨[rowA], [], [], []⟩ (0, rowA)).1.pool = [] ++ ["hello world"] :=
  ⟨(c10_theorem svcBoom ⟨[rowA], ["x"], ["p"], [["p"]]⟩ (0, rowA)).1 "boom" rfl,
   ((c10_theorem svcHello ⟨[rowA], [], [], []⟩ (0, rowA)).2 "T" "hello world" rfl).2.1⟩

/-! ## Claim C6 -/

theorem stepItem_handle (svc : ℕ → CallResult) (st : RunState) (item : ℕ × Row) :
    (stepItem svc st item).2.1 = pyStripStr item.2.handle := by
  simp only [stepItem]
  rcases (generate_seo svc (pyStripStr item.2.title) st.pool).1 with e | td <;> simp

theorem runItems_handles (svcFor : ℕ → ℕ → CallResult) :
    ∀ (items : List (ℕ × Row)) (pos : ℕ) (st : RunState),
      (runItems svcFor pos st items).2.map (fun rep => rep.1) =
        items.map (fun it => pyStripStr it.2.handle) := by
  intro items
  induction items with
  | nil => intro pos st; rfl
  | cons it rest ih =>
    intro pos st
    simp only [runItems, List.map_cons]
    rw [stepItem_handle, ih]

/-- C6 counterexample: in force-regenerate (`--overwrite`) mode the persisted
progress set is *cleared* at startup, so a generation request (here one
request, ending in a fatal error) is issued even for the item whose handle
`"a"` is in the persisted progress set — the claim fails for force mode. -/
theorem c6_counterexample :
    (mainRun (fun _ => svcBoom) true ["a"] [rowA]).2 = [("a", 1, none)] ∧
      ("a" : String) ∈ (["a"] : List String) := by
  constructor
  · rfl
  · decide

/-- C6 (amended): in normal mode no generation request is ever issued for an
item whose identifier is in the persisted progress set at startup (every
report handle avoids the startup set); in force-regenerate mode the startup
progress set is cleared and ignored entirely — the run is identical to one
started with an empty progress set (so an interrupted forced run restarted
with the flag regenerates completed items rather than resuming). -/
theorem c6_theorem (svcFor : ℕ → ℕ → CallResult) (processed0 : List String)
    (rows : List Row) :
    (∀ rep ∈ (mainRun svcFor false processed0 rows).2, rep.1 ∉ processed0) ∧
      mainRun svcFor true processed0 rows = mainRun svcFor true [] rows := by
  constructor
  · intro rep hrep
    have hmem : rep.1 ∈ (mainRun svcFor false processed0 rows).2.map (fun r => r.1) :=
      List.mem_map_of_mem _ hrep
    rw [show (mainRun svcFor false processed0 rows).2 =
        (runItems svcFor 0
          { rows := rows,
            pool := rows.filterMap (fun r =>
              if pyStripStr r.seoDescription ≠ "" ∧ false = false then
                some (pyStripStr r.seoDescription)
              else none),
            processed := processed0, saves := [] }
          (selectItems false processed0 rows)).2 from rfl,
      runItems_handles] at hmem
    obtain ⟨it, hit, hh⟩ := List.mem_map.mp hmem
    have hsel := (List.mem_filter.mp hit).2
    simp at hsel
    rw [← hh]
    exact hsel.2.2
  · rfl

/-- C6 witness: the normal-mode guarantee applied to a run whose single
processed item has handle `"h1"` and whose startup progress set is `["x"]`. -/
theorem c6_witness : ("h1" : String) ∉ (["x"] : List String) :=
  (c6_theorem (fun _ => svcBoom) ["x"] [clockRow]).1 ("h1", 1, none) (by decide)

/-! ## Claim C7 -/

theorem stepItem_pool (svc : ℕ → CallResult) (st : RunState) (item : ℕ × Row) :
    (stepItem svc st item).1.pool = st.pool ++ ((stepItem svc st item).2.2.2).toList := by
  simp only [stepItem]
  rcases (generate_seo svc (pyStripStr item.2.title) st.pool).1 with e | td <;> simp

theorem runItems_pool (svcFor : ℕ → ℕ → CallResult) :
    ∀ (items : List (ℕ × Row)) (pos : ℕ) (st : RunState),
      (runItems svcFor pos st items).1.pool =
        st.pool ++ (runItems svcFor pos st items).2.filterMap (fun rep => rep.2.2) := by
  intro items
  induction items with
  | nil => intro pos st; simp [runItems]
  | cons it rest ih =>
    intro pos st
    simp only [runItems]
    rw [ih (pos + 1) (stepItem (svcFor pos) st it).1]
    rw [stepItem_pool]
    rcases hdesc : (stepItem (svcFor pos) st it).2.2.2 with _ | d <;>
      simp [List.filterMap_cons, hdesc]

theorem runItems_append (svcFor : ℕ → ℕ → CallResult) :
    ∀ (l1 l2 : List (ℕ × Row)) (pos : ℕ) (st : RunState),
      runItems svcFor pos st (l1 ++ l2) =
        ((runItems svcFor (pos + l1.length) (runItems svcFor pos st l1).1 l2).1,
          (runItems svcFor pos st l1).2 ++
            (runItems svcFor (pos + l1.length) (runItems svcFor pos st l1).1 l2).2) := by
  intro l1
  induction l1 with
  | nil => intro l2 pos st; simp [runItems]
  | cons it rest ih =>
    intro l2 pos st
    simp only [List.cons_append, runItems, List.length_cons, List.append_eq]
    rw [ih l2 (pos + 1) (stepItem (svcFor pos) st it).1]
    rw [show pos + (rest.length + 1) = pos + 1 + rest.length from by omega]

/-- C7 counterexample: `main` seeds the similarity pool with every
pre-existing CSV SEO description before the loop starts, so the pool the gate
sees is *not* exactly the accepted descriptions of the strictly-earlier items
of the run.  Here the unprocessed row `rowD` contributes `"dd"`: the single
selected item (`rowA`, with no strictly-earlier item) is gated against the
non-empty pool `["dd"]`, and the final pool `["dd", "hello world"]` differs
from the run's accepted descriptions `["hello world"]` by the seeded entry. -/
theorem hw_dd_score : simScore "hello world" "dd" = 2 / 13 := by
  unfold simScore
  rw [pyRatio_concrete _ _ 1 11 2 (by decide) (by decide) (by decide) (by norm_num)]
  norm_num

theorem hw_dd_accepted : check_similarity "hello world" ["dd"] = (true, 2 / 13, "dd") := by
  rw [check_single_pos "hello world" "dd" (by rw [hw_dd_score]; norm_num), hw_dd_score]
  have hlt : (2 : ℚ) / 13 < SIMILARITY_THRESHOLD := by
    norm_num [SIMILARITY_THRESHOLD]
  simp [hlt]

theorem gen_hello_dd : generate_seo svcHello "T" ["dd"] =
    (Except.ok ("T", "hello world"), 1, []) := by
  have hp : parse_seo_response "SEO Description: hello world" "T" =
      ("T", "hello world") := by decide
  have hR : List.range MAX_RETRIES = [0, 1, 2] := rfl
  unfold generate_seo
  rw [hR]
  rw [genLoop_accept svcHello "T" ["dd"] 0 "SEO Description: hello world" 0 [1, 2] rfl
    (by rw [hp, hw_dd_accepted])]
  rw [hp]

theorem step_hello_report :
    (stepItem svcHello c7State (1, rowA)).2 = ("a", 1, some "hello world") := by
  simp only [stepItem, c7State]
  have ht : pyStripStr rowA.title = "T" := by decide
  rw [ht, gen_hello_dd]
  simp
  decide

theorem c7_counterexample :
    (mainRun (fun _ => svcHello) false [] [rowD, rowA]).2.filterMap
        (fun rep => rep.2.2) = ["hello world"] ∧
      (mainRun (fun _ => svcHello) false [] [rowD, rowA]).1.pool =
        ["dd", "hello world"] := by
  have hm : mainRun (fun _ => svcHello) false [] [rowD, rowA] =
      runItems (fun _ => svcHello) 0 c7State [(1, rowA)] := rfl
  have hrep : (runItems (fun _ => svcHello) 0 c7State [(1, rowA)]).2 =
      [("a", 1, some "hello world")] := by
    simp only [runItems]
    simp [step_hello_report]
  have hpool : (runItems (fun _ => svcHello) 0 c7State [(1, rowA)]).1.pool =
      ["dd", "hello world"] := by
    rw [runItems_pool (fun _ => svcHello) [(1, rowA)] 0 c7State, hrep]
    decide
  constructor
  · rw [hm, hrep]
    decide
  · rw [hm, hpool]

/-- C7 (amended): throughout a run the description pool is exactly the
initial pool — which `main` seeds with the pre-existing CSV SEO descriptions,
possibly of rows never processed in this run — followed by the accepted
descriptions of the already-processed items of this run, in order, each
appended exactly once (the per-item reports record exactly the accepted
descriptions); moreover processing the next item only ever appends to the
pool (at most one description), so at the moment an item is gated the pool
holds the initial pool plus exactly the accepted descriptions of the
strictly-earlier items, and the pool never shrinks. -/
theorem c7_theorem (svcFor : ℕ → ℕ → CallResult) (st0 : RunState)
    (items : List (ℕ × Row)) (pos : ℕ) :
    ((runItems svcFor pos st0 items).1.pool =
      st0.pool ++ (runItems svcFor pos st0 items).2.filterMap (fun rep => rep.2.2)) ∧
    (∀ k : ℕ, ∃ t : List String,
      (runItems svcFor pos st0 (items.take (k + 1))).1.pool =
        (runItems svcFor pos st0 (items.take k)).1.pool ++ t ∧ t.length ≤ 1) := by
  constructor
  · exact runItems_pool svcFor items pos st0
  · intro k
    by_cases hk : k < items.length
    · obtain ⟨it, hit⟩ : ∃ it, items[k]? = some it :=
        ⟨items[k], List.getElem?_eq_getElem hk⟩
      rw [List.take_succ, hit]
      simp only [Option.toList]
      rw [runItems_append svcFor (items.take k) [it] pos st0]
      simp only [Option.toList]
      refine ⟨((stepItem (svcFor (pos + (items.take k).length))
          (runItems svcFor pos st0 (items.take k)).1 it).2.2.2).toList, ?_, ?_⟩
      · simp only [runItems]
        rw [stepItem_pool]
      · rcases (stepItem (svcFor (pos + (items.take k).length))
            (runItems svcFor pos st0 (items.take k)).1 it).2.2.2 <;> simp
    · rw [List.take_of_length_le (by omega), List.take_of_length_le (by omega)]
      exact ⟨[], by simp, by simp⟩

/-! ## Claim C8: membership lemmas for the sanitiser -/

theorem dropWhile_head_not (p : Char → Bool) :
    ∀ (l : List Char) (g : Char) (t : List Char), l.dropWhile p = g :: t → p g = false := by
  intro l
  induction l with
  | nil => intro g t h; simp [List.dropWhile] at h
  | cons c rest ih =>
    intro g t h
    rw [List.dropWhile_cons] at h
    by_cases hc : p c = true
    · rw [if_pos hc] at h
      exact ih g t h
    · rw [if_neg hc] at h
      obtain ⟨rfl, -⟩ := List.cons.inj h
      simpa using hc

theorem dropWhile_notGt_structure {l g : List Char} {gc : Char}
    (h : l.dropWhile notGt = gc :: g) : gc = '>' ∧ l = l.takeWhile notGt ++ '>' :: g := by
  have hg : notGt gc = false := dropWhile_head_not notGt l gc g h
  have hg2 : gc = '>' := by simpa [notGt] using hg
  refine ⟨hg2, ?_⟩
  conv_lhs => rw [← List.takeWhile_append_dropWhile (p := notGt) (l := l)]
  rw [h, hg2]

theorem mem_stripTagsFuel : ∀ (f : ℕ) (l : List Char) (c : Char),
    c ∈ stripTagsFuel f l → c ∈ l := by
  intro f
  induction f with
  | zero => intro l c h; exact h
  | succ g ih =>
    intro l c h
    cases l with
    | nil => exact h
    | cons d rest =>
      simp only [stripTagsFuel] at h
      by_cases hc : d = '<' ∧ (rest.takeWhile notGt).isEmpty = false ∧
          (rest.dropWhile notGt).isEmpty = false
      · rw [if_pos hc] at h
        have hmem : c ∈ (rest.dropWhile notGt).drop 1 := ih _ c h
        apply List.mem_cons_of_mem
        exact (List.dropWhile_sublist notGt).subset (List.drop_subset _ _ hmem)
      · rw [if_neg hc] at h
        rcases List.mem_cons.mp h with rfl | hm
        · exact List.mem_cons_self _ _
        · exact List.mem_cons_of_mem _ (ih rest c hm)

theorem mem_replaceFuel (old new : List Char) :
    ∀ (f : ℕ) (l : List Char) (c : Char),
      c ∈ replaceFuel old new f l → c ∈ l ∨ c ∈ new := by
  intro f
  induction f with
  | zero => intro l c h; exact Or.inl h
  | succ g ih =>
    intro l c h
    cases l with
    | nil => exact Or.inl h
    | cons d rest =>
      simp only [replaceFuel] at h
      by_cases hp : old.isPrefixOf (d :: rest) = true
      · rw [if_pos hp] at h
        rcases List.mem_append.mp h with hn | hm
        · exact Or.inr hn
        · rcases ih _ c hm with hl | hn
          · exact Or.inl (List.drop_subset _ _ hl)
          · exact Or.inr hn
      · rw [if_neg hp] at h
        rcases List.mem_cons.mp h with rfl | hm
        · exact Or.inl (List.mem_cons_self _ _)
        · rcases ih rest c hm with hl | hn
          · exact Or.inl (List.mem_cons_of_mem _ hl)
          · exact Or.inr hn

theorem mem_collapseWs : ∀ (l : List Char) (c : Char),
    c ∈ collapseWs l → c ∈ l ∨ c = ' ' := by
  intro l
  induction l with
  | nil => intro c h; exact Or.inl h
  | cons a t ih =>
    intro c h
    cases t with
    | nil =>
      unfold collapseWs at h
      by_cases ha : pyWs a = true
      · rw [if_pos ha] at h
        exact Or.inr (by simpa using h)
      · rw [if_neg ha] at h
        exact Or.inl (by simpa using h)
    | cons b u =>
      unfold collapseWs at h
      by_cases hab : pyWs a = true ∧ pyWs b = true
      · rw [if_pos hab] at h
        rcases ih c h with hm | hs
        · exact Or.inl (List.mem_cons_of_mem _ hm)
        · exact Or.inr hs
      · rw [if_neg hab] at h
        rcases List.mem_cons.mp h with heq | hm
        · by_cases ha : pyWs a = true
          · right; rw [heq, if_pos ha]
          · left; rw [heq, if_neg ha]; exact List.mem_cons_self _ _
        · rcases ih c hm with hl | hs
          · exact Or.inl (List.mem_cons_of_mem _ hl)
          · exact Or.inr hs

theorem pyRstrip_eq_append (l : List Char) : ∃ t, l = pyRstrip l ++ t := by
  unfold pyRstrip
  refine ⟨(l.reverse.takeWhile pyWs).reverse, ?_⟩
  conv_lhs => rw [← l.reverse_reverse,
    ← List.takeWhile_append_dropWhile (p := pyWs) (l := l.reverse), List.reverse_append]

theorem mem_pyStrip {c : Char} {l : List Char} (h : c ∈ pyStrip l) : c ∈ l := by
  unfold pyStrip at h
  obtain ⟨t, ht⟩ := pyRstrip_eq_append (l.dropWhile pyWs)
  have h2 : c ∈ l.dropWhile pyWs := by
    rw [ht]
    exact List.mem_append_left _ h
  exact (List.dropWhile_sublist pyWs).subset h2

/-! ## Claim C8: the tag-safety invariant -/

theorem isPrefixOf_eq_true : ∀ {p l : List Char}, p.isPrefixOf l = true ↔ ∃ t, l = p ++ t := by
  intro p
  induction p with
  | nil => intro l; simp [List.isPrefixOf]
  | cons a p' ih =>
    intro l
    cases l with
    | nil => simp [List.isPrefixOf]
    | cons b l' =>
      simp only [List.isPrefixOf, Bool.and_eq_true, beq_iff_eq, ih, List.cons_append,
        List.cons.injEq]
      constructor
      · rintro ⟨rfl, t, rfl⟩; exact ⟨t, rfl, rfl⟩
      · rintro ⟨t, rfl, rfl⟩; exact ⟨rfl, t, rfl⟩

theorem tagSafe_nil : tagSafe [] := trivial

theorem tagSafe_cons_iff {c : Char} {rest : List Char} :
    tagSafe (c :: rest) ↔
      ((c = '<' → (∃ r, rest = '>' :: r) ∨ '>' ∉ rest) ∧ tagSafe rest) := Iff.rfl

theorem tagSafe_singleton (c : Char) : tagSafe [c] :=
  ⟨fun _ => Or.inr (by simp), trivial⟩

theorem tagSafe_of_not_lt {c : Char} {rest : List Char} (hc : c ≠ '<')
    (h : tagSafe rest) : tagSafe (c :: rest) :=
  ⟨fun hcc => absurd hcc hc, h⟩

theorem tagSafe_append_elim : ∀ (u m : List Char), tagSafe (u ++ m) → tagSafe m := by
  intro u
  induction u with
  | nil => intro m h; exact h
  | cons a u' ih => intro m h; exact ih m h.2

theorem tagSafe_append_no_lt : ∀ (u m : List Char), '<' ∉ u → tagSafe m →
    tagSafe (u ++ m) := by
  intro u
  induction u with
  | nil => intro m _ h; exact h
  | cons a u' ih =>
    intro m hu h
    exact tagSafe_of_not_lt (fun he => hu (he ▸ List.mem_cons_self a u'))
      (ih m (fun hm => hu (List.mem_cons_of_mem _ hm)) h)

theorem tagSafe_append_left : ∀ (u v : List Char), tagSafe (u ++ v) → tagSafe u := by
  intro u
  induction u with
  | nil => intro v _; trivial
  | cons a u' ih =>
    intro v h
    refine ⟨?_, ih v h.2⟩
    intro ha
    rcases h.1 ha with ⟨r, hr⟩ | hng
    · cases u' with
      | nil => exact Or.inr (by simp)
      | cons x u'' =>
        obtain ⟨rfl, -⟩ := List.cons.inj hr
        exact Or.inl ⟨u'', rfl⟩
    · exact Or.inr fun hm => hng (List.mem_append_left _ hm)

theorem hasTag_eq_false_of_no_gt : ∀ (l : List Char), '>' ∉ l → hasTag l = false := by
  intro l
  induction l with
  | nil => intro _; rfl
  | cons c rest ih =>
    intro h
    unfold hasTag
    rw [if_neg, ih (fun hm => h (List.mem_cons_of_mem _ hm))]
    rintro ⟨-, -, h3⟩
    have : rest.dropWhile notGt = [] := by
      rw [List.dropWhile_eq_nil_iff]
      intro x hx
      simp [notGt]
      rintro rfl
      exact h (List.mem_cons_of_mem _ hx)
    rw [this] at h3
    simp at h3

theorem tagSafe_hasTag_false : ∀ (l : List Char), tagSafe l → hasTag l = false := by
  intro l
  induction l with
  | nil => intro _; rfl
  | cons c rest ih =>
    intro h
    unfold hasTag
    rw [if_neg, ih h.2]
    rintro ⟨rfl, h2, h3⟩
    rcases h.1 rfl with ⟨r, hr⟩ | hng
    · rw [hr] at h2
      simp [List.takeWhile_cons, notGt] at h2
    · have : rest.dropWhile notGt = [] := by
        rw [List.dropWhile_eq_nil_iff]
        intro x hx
        simp [notGt]
        rintro rfl
        exact hng hx
      rw [this] at h3
      simp at h3

theorem stripTagsFuel_gt_head (g : ℕ) (r : List Char) :
    ∃ m, stripTagsFuel g ('>' :: r) = '>' :: m := by
  cases g with
  | zero => exact ⟨r, rfl⟩
  | succ g' =>
    refine ⟨stripTagsFuel g' r, ?_⟩
    simp only [stripTagsFuel]
    rw [if_neg]
    rintro ⟨h, -⟩
    exact absurd h (by decide)

theorem tagSafe_stripTagsFuel : ∀ (f : ℕ) (l : List Char), l.length ≤ f →
    tagSafe (stripTagsFuel f l) := by
  intro f
  induction f with
  | zero =>
    intro l hl
    have : l = [] := List.eq_nil_of_length_eq_zero (Nat.le_zero.mp hl)
    subst this
    trivial
  | succ g ih =>
    intro l hl
    cases l with
    | nil => trivial
    | cons c rest =>
      have hrl : rest.length ≤ g := by
        simp only [List.length_cons] at hl
        omega
      simp only [stripTagsFuel]
      by_cases hc : c = '<' ∧ (rest.takeWhile notGt).isEmpty = false ∧
          (rest.dropWhile notGt).isEmpty = false
      · rw [if_pos hc]
        apply ih
        have hlen : (rest.dropWhile notGt).length ≤ rest.length :=
          (List.dropWhile_sublist notGt).length_le
        rw [List.length_drop]
        omega
      · rw [if_neg hc]
        refine ⟨?_, ih rest hrl⟩
        intro hlt
        subst hlt
        push_neg at hc
        rcases Bool.eq_false_or_eq_true (rest.takeWhile notGt).isEmpty with htw | htw
        · -- the between part is empty: rest is empty or starts with '>'
          cases rest with
          | nil =>
            right
            intro hmem
            have := mem_stripTagsFuel g [] '>' hmem
            simp at this
          | cons x r' =>
            rw [List.takeWhile_cons] at htw
            by_cases hx : notGt x = true
            · rw [if_pos hx] at htw
              exact absurd htw (by simp)
            · have hx2 : x = '>' := by simpa [notGt] using hx
              subst hx2
              obtain ⟨m, hm⟩ := stripTagsFuel_gt_head g r'
              rw [hm]
              exact Or.inl ⟨m, rfl⟩
        · -- the between part is non-empty, so the drop-while part must be empty
          have hdw : (rest.dropWhile notGt).isEmpty = true := by
            rcases Bool.eq_false_or_eq_true (rest.dropWhile notGt).isEmpty with hdw | hdw
            · exact hdw
            · exact absurd hdw (hc rfl htw)
          have hnil : rest.dropWhile notGt = [] := by simpa using hdw
          right
          intro hmem
          have hS := mem_stripTagsFuel g rest '>' hmem
          rw [List.dropWhile_eq_nil_iff] at hnil
          have := hnil '>' hS
          simp [notGt] at this

theorem tagSafe_stripTags (l : List Char) : tagSafe (stripTags l) :=
  tagSafe_stripTagsFuel l.length l le_rfl

theorem tagSafe_filter (p : Char → Bool) (hgt : p '>' = true) :
    ∀ (l : List Char), tagSafe l → tagSafe (l.filter p) := by
  intro l
  induction l with
  | nil => intro _; trivial
  | cons c rest ih =>
    intro h
    rw [List.filter_cons]
    by_cases hp : p c = true
    · rw [if_pos hp]
      refine ⟨?_, ih h.2⟩
      intro hc
      rcases h.1 hc with ⟨r, hr⟩ | hng
      · subst hr
        rw [List.filter_cons, if_pos hgt]
        exact Or.inl ⟨_, rfl⟩
      · exact Or.inr fun hm => hng (List.mem_of_mem_filter hm)
    · rw [if_neg hp]
      exact ih h.2

theorem tagSafe_removeQuotes (l : List Char) (h : tagSafe l) :
    tagSafe (removeQuotes l) :=
  tagSafe_filter _ (by decide) l h

theorem replaceFuel_gt_head (old new : List Char) (hne : old ≠ []) (hog : '>' ∉ old) :
    ∀ (g : ℕ) (r : List Char), ∃ m, replaceFuel old new g ('>' :: r) = '>' :: m := by
  intro g r
  cases g with
  | zero => exact ⟨r, rfl⟩
  | succ g' =>
    refine ⟨replaceFuel old new g' r, ?_⟩
    simp only [replaceFuel]
    rw [if_neg]
    intro hp
    obtain ⟨t, ht⟩ := isPrefixOf_eq_true.mp hp
    cases old with
    | nil => exact hne rfl
    | cons oh ot =>
      obtain ⟨rfl, -⟩ := List.cons.inj ht
      exact hog (List.mem_cons_self _ _)

theorem tagSafe_replaceFuel (old new : List Char) (hne : old ≠ [])
    (_hol : '<' ∉ old) (hog : '>' ∉ old) (hnl : '<' ∉ new) (hng : '>' ∉ new) :
    ∀ (f : ℕ) (l : List Char), tagSafe l → tagSafe (replaceFuel old new f l) := by
  intro f
  induction f with
  | zero => intro l h; exact h
  | succ g ih =>
    intro l h
    cases l with
    | nil => trivial
    | cons c rest =>
      simp only [replaceFuel]
      by_cases hp : old.isPrefixOf (c :: rest) = true
      · rw [if_pos hp]
        obtain ⟨m, hm⟩ := isPrefixOf_eq_true.mp hp
        apply tagSafe_append_no_lt _ _ hnl
        apply ih
        rw [hm, List.drop_left]
        exact tagSafe_append_elim old m (hm ▸ h)
      · rw [if_neg hp]
        refine ⟨?_, ih rest h.2⟩
        intro hc
        rcases h.1 hc with ⟨r, hr⟩ | hng2
        · subst hr
          obtain ⟨m, hm⟩ := replaceFuel_gt_head old new hne hog g r
          rw [hm]
          exact Or.inl ⟨m, rfl⟩
        · refine Or.inr fun hm => ?_
          rcases mem_replaceFuel old new g rest '>' hm with hl | hn
          · exact hng2 hl
          · exact hng hn

theorem tagSafe_applyBanned (l : List Char) (h : tagSafe l) : tagSafe (applyBanned l) := by
  unfold applyBanned pyReplace
  apply tagSafe_replaceFuel _ _ (by decide) (by decide) (by decide) (by decide) (by decide)
  apply tagSafe_replaceFuel _ _ (by decide) (by decide) (by decide) (by decide) (by decide)
  apply tagSafe_replaceFuel _ _ (by decide) (by decide) (by decide) (by decide) (by decide)
  exact h

theorem collapseWs_head_not_ws (x : Char) (t : List Char) (hx : pyWs x = false) :
    ∃ m, collapseWs (x :: t) = x :: m := by
  cases t with
  | nil =>
    refine ⟨[], ?_⟩
    simp [collapseWs, hx]
  | cons y u =>
    refine ⟨collapseWs (y :: u), ?_⟩
    simp only [collapseWs]
    rw [if_neg (by simp [hx]), if_neg (by simp [hx])]

theorem tagSafe_collapseWs : ∀ (l : List Char), tagSafe l → tagSafe (collapseWs l) := by
  intro l
  induction l with
  | nil => intro _; trivial
  | cons a t ih =>
    intro h
    cases t with
    | nil =>
      unfold collapseWs
      by_cases ha : pyWs a = true
      · rw [if_pos ha]; exact tagSafe_singleton _
      · rw [if_neg ha]; exact tagSafe_singleton _
    | cons b u =>
      simp only [collapseWs]
      by_cases hab : pyWs a = true ∧ pyWs b = true
      · rw [if_pos hab]
        exact ih h.2
      · rw [if_neg hab]
        refine ⟨?_, ih h.2⟩
        intro he
        have ha : pyWs a = false ∧ a = '<' := by
          by_cases ha : pyWs a = true
          · rw [if_pos ha] at he
            exact absurd he (by decide)
          · rw [if_neg ha] at he
            exact ⟨by simpa using ha, he⟩
        rcases h.1 ha.2 with ⟨r, hr⟩ | hng
        · obtain ⟨rfl, -⟩ := List.cons.inj hr
          obtain ⟨m, hm⟩ := collapseWs_head_not_ws '>' u (by decide)
          rw [hm]
          exact Or.inl ⟨m, rfl⟩
        · refine Or.inr fun hm => ?_
          rcases mem_collapseWs (b :: u) '>' hm with hl | hs
          · exact hng hl
          · exact absurd hs (by decide)

theorem tagSafe_dropWhile (p : Char → Bool) :
    ∀ (l : List Char), tagSafe l → tagSafe (l.dropWhile p) := by
  intro l
  induction l with
  | nil => intro _; trivial
  | cons c rest ih =>
    intro h
    rw [List.dropWhile_cons]
    by_cases hp : p c = true
    · rw [if_pos hp]; exact ih h.2
    · rw [if_neg hp]; exact h

theorem tagSafe_pyRstrip (l : List Char) (h : tagSafe l) : tagSafe (pyRstrip l) := by
  obtain ⟨t, ht⟩ := pyRstrip_eq_append l
  exact tagSafe_append_left _ t (ht ▸ h)

theorem tagSafe_pyStrip (l : List Char) (h : tagSafe l) : tagSafe (pyStrip l) :=
  tagSafe_pyRstrip _ (tagSafe_dropWhile pyWs l h)

theorem tagSafe_take : ∀ (n : ℕ) (l : List Char), tagSafe l → tagSafe (l.take n) := by
  intro n l
  induction l generalizing n with
  | nil => intro _; simp [tagSafe_nil]
  | cons c rest ih =>
    intro h
    cases n with
    | zero => exact tagSafe_nil
    | succ m =>
      rw [List.take_succ_cons]
      refine ⟨?_, ih m h.2⟩
      intro hc
      rcases h.1 hc with ⟨r, hr⟩ | hng
      · subst hr
        cases m with
        | zero => exact Or.inr (by simp)
        | succ m' =>
          rw [List.take_succ_cons]
          exact Or.inl ⟨_, rfl⟩
      · exact Or.inr fun hm => hng (List.take_subset _ _ hm)

/-! ## Claim C8: no banned term survives the substitution stage -/

theorem containsSub_append_not_head (h : Char) (pt seg r : List Char) (hh : h ∉ seg) :
    containsSub (h :: pt) (seg ++ r) = containsSub (h :: pt) r := by
  induction seg with
  | nil => rfl
  | cons a sg ih =>
    have ha : (h == a) = false := by
      simp only [beq_eq_false_iff_ne, ne_eq]
      rintro rfl
      exact hh (List.mem_cons_self _ _)
    simp only [List.cons_append, containsSub, List.isPrefixOf, ha, Bool.false_and,
      Bool.false_or]
    exact ih fun hm => hh (List.mem_cons_of_mem _ hm)

theorem containsSub_of_drop (pat : List Char) :
    ∀ (l : List Char) (k : ℕ), containsSub pat (l.drop k) = true → containsSub pat l = true := by
  intro l
  induction l with
  | nil => intro k h; simpa using h
  | cons c rest ih =>
    intro k h
    cases k with
    | zero => exact h
    | succ m =>
      rw [List.drop_succ_cons] at h
      simp only [containsSub, Bool.or_eq_true]
      exact Or.inr (ih m h)

theorem isPrefixOf_append_cases :
    ∀ (pt u : List Char) (hn : Char) (z : List Char),
      pt.isPrefixOf (u ++ hn :: z) = true →
      (∃ w, u = pt ++ w) ∨ hn ∈ pt := by
  intro pt
  induction pt with
  | nil => intro u hn z _; exact Or.inl ⟨u, rfl⟩
  | cons q pt' ih =>
    intro u hn z h
    cases u with
    | nil =>
      simp only [List.nil_append, List.isPrefixOf, Bool.and_eq_true, beq_iff_eq] at h
      exact Or.inr (h.1 ▸ List.mem_cons_self _ _)
    | cons a u' =>
      simp only [List.cons_append, List.isPrefixOf, Bool.and_eq_true, beq_iff_eq] at h
      obtain ⟨rfl, h2⟩ := h
      rcases ih u' hn z h2 with ⟨w, hw⟩ | hm
      · exact Or.inl ⟨w, by rw [hw, List.cons_append]⟩
      · exact Or.inr (List.mem_cons_of_mem _ hm)

theorem isPrefixOf_of_append (pt u w : List Char) (hu : pt.isPrefixOf u = true) :
    pt.isPrefixOf (u ++ w) = true := by
  obtain ⟨t, rfl⟩ := isPrefixOf_eq_true.mp hu
  exact isPrefixOf_eq_true.mpr ⟨t ++ w, by simp⟩

theorem replaceFuel_shape (old new : List Char) :
    ∀ (f : ℕ) (l : List Char),
      replaceFuel old new f l = l ∨
        ∃ u r2, (∃ w, l = u ++ w) ∧ replaceFuel old new f l = u ++ new ++ r2 := by
  intro f
  induction f with
  | zero => intro l; left; rfl
  | succ g ih =>
    intro l
    cases l with
    | nil => left; rfl
    | cons c rest =>
      simp only [replaceFuel]
      by_cases hp : old.isPrefixOf (c :: rest) = true
      · rw [if_pos hp]
        right
        exact ⟨[], replaceFuel old new g ((c :: rest).drop old.length),
          ⟨c :: rest, rfl⟩, rfl⟩
      · rw [if_neg hp]
        rcases ih rest with he | ⟨u, r2, ⟨w, hw⟩, hr⟩
        · left; rw [he]
        · right
          exact ⟨c :: u, r2, ⟨w, by rw [hw, List.cons_append]⟩,
            by rw [hr, List.cons_append, List.cons_append]⟩

theorem replaceFuel_no_pat (hp : Char) (pt : List Char) (hn : Char) (nt : List Char)
    (h1 : hp ∉ (hn :: nt)) (h2 : hn ∉ (hp :: pt)) :
    ∀ (f : ℕ) (l : List Char), l.length ≤ f →
      containsSub (hp :: pt) (replaceFuel (hp :: pt) (hn :: nt) f l) = false := by
  intro f
  induction f with
  | zero =>
    intro l hl
    have : l = [] := List.eq_nil_of_length_eq_zero (Nat.le_zero.mp hl)
    subst this
    rfl
  | succ g ih =>
    intro l hl
    cases l with
    | nil => rfl
    | cons c rest =>
      simp only [replaceFuel]
      by_cases hpre : (hp :: pt).isPrefixOf (c :: rest) = true
      · rw [if_pos hpre]
        rw [containsSub_append_not_head hp pt (hn :: nt) _ h1]
        apply ih
        simp only [List.length_drop, List.length_cons]
        simp only [List.length_cons] at hl
        omega
      · rw [if_neg hpre]
        have hR := ih rest (by simp only [List.length_cons] at hl; omega)
        simp only [containsSub, hR, Bool.or_false]
        by_cases hc : (hp == c) = true
        · have hc2 : hp = c := by simpa using hc
          subst hc2
          have hpt : pt.isPrefixOf rest = false := by
            rcases Bool.eq_false_or_eq_true (pt.isPrefixOf rest) with hb | hb
            · exact absurd (by simp [List.isPrefixOf, hb]) hpre
            · exact hb
          rcases Bool.eq_false_or_eq_true
              ((hp :: pt).isPrefixOf (hp :: replaceFuel (hp :: pt) (hn :: nt) g rest)) with
            hb | hb
          · exfalso
            simp only [List.isPrefixOf, beq_self_eq_true, Bool.true_and] at hb
            rcases replaceFuel_shape (hp :: pt) (hn :: nt) g rest with he | ⟨u, r2, ⟨w, hw⟩, hr⟩
            · rw [he] at hb
              rw [hb] at hpt
              simp at hpt
            · rw [hr] at hb
              have hb2 : pt.isPrefixOf (u ++ hn :: (nt ++ r2)) = true := by
                simpa using hb
              rcases isPrefixOf_append_cases pt u hn (nt ++ r2) hb2 with ⟨v, hv⟩ | hm
              · have : pt.isPrefixOf rest = true := by
                  rw [hw, hv, List.append_assoc]
                  exact isPrefixOf_of_append pt pt _ (isPrefixOf_eq_true.mpr ⟨[], by simp⟩)
                rw [this] at hpt
                simp at hpt
              · exact h2 (List.mem_cons_of_mem _ hm)
          · exact hb
        · simp only [List.isPrefixOf, hc, Bool.false_and]

theorem replaceFuel_keeps_no_pat (hp : Char) (pt pat2 : List Char) (hn : Char)
    (nt : List Char) (hpat2 : pat2 ≠ []) (h1 : hp ∉ (hn :: nt)) (h2 : hn ∉ (hp :: pt)) :
    ∀ (f : ℕ) (l : List Char), l.length ≤ f →
      containsSub (hp :: pt) l = false →
      containsSub (hp :: pt) (replaceFuel pat2 (hn :: nt) f l) = false := by
  intro f
  induction f with
  | zero => intro l _ h; exact h
  | succ g ih =>
    intro l hl hno
    cases l with
    | nil => rfl
    | cons c rest =>
      simp only [containsSub, Bool.or_eq_false_iff] at hno
      obtain ⟨hno1, hno2⟩ := hno
      simp only [replaceFuel]
      by_cases hpre : pat2.isPrefixOf (c :: rest) = true
      · rw [if_pos hpre]
        rw [containsSub_append_not_head hp pt (hn :: nt) _ h1]
        apply ih
        · simp only [List.length_drop, List.length_cons]
          simp only [List.length_cons] at hl
          have : 1 ≤ pat2.length := by
            cases pat2 with
            | nil => exact absurd rfl hpat2
            | cons _ _ => simp
          omega
        · rcases Bool.eq_false_or_eq_true
              (containsSub (hp :: pt) ((c :: rest).drop pat2.length)) with hb | hb
          · exact absurd (containsSub_of_drop _ _ _ hb) (by simp [containsSub, hno1, hno2])
          · exact hb
      · rw [if_neg hpre]
        have hR := ih rest (by simp only [List.length_cons] at hl; omega) hno2
        simp only [containsSub, hR, Bool.or_false]
        by_cases hc : (hp == c) = true
        · have hc2 : hp = c := by simpa using hc
          subst hc2
          have hpt : pt.isPrefixOf rest = false := by
            rcases Bool.eq_false_or_eq_true (pt.isPrefixOf rest) with hb | hb
            · exact absurd hno1 (by simp [List.isPrefixOf, hb])
            · exact hb
          rcases Bool.eq_false_or_eq_true
              ((hp :: pt).isPrefixOf (hp :: replaceFuel pat2 (hn :: nt) g rest)) with hb | hb
          · exfalso
            simp only [List.isPrefixOf, beq_self_eq_true, Bool.true_and] at hb
            rcases replaceFuel_shape pat2 (hn :: nt) g rest with he | ⟨u, r2, ⟨w, hw⟩, hr⟩
            · rw [he] at hb
              rw [hb] at hpt
              simp at hpt
            · rw [hr] at hb
              have hb2 : pt.isPrefixOf (u ++ hn :: (nt ++ r2)) = true := by
                simpa using hb
              rcases isPrefixOf_append_cases pt u hn (nt ++ r2) hb2 with ⟨v, hv⟩ | hm
              · have : pt.isPrefixOf rest = true := by
                  rw [hw, hv, List.append_assoc]
                  exact isPrefixOf_of_append pt pt _ (isPrefixOf_eq_true.mpr ⟨[], by simp⟩)
                rw [this] at hpt
                simp at hpt
              · exact h2 (List.mem_cons_of_mem _ hm)
          · exact hb
        · simp only [List.isPrefixOf, hc, Bool.false_and]

theorem applyBanned_no_banned (l : List Char) :
    containsSub "faux leather".data (applyBanned l) = false ∧
      containsSub "Faux leather".data (applyBanned l) = false ∧
      containsSub "Faux Leather".data (applyBanned l) = false := by
  have e1 : ("faux leather".data : List Char) = 'f' :: "aux leather".data := rfl
  have e2 : ("Faux leather".data : List Char) = 'F' :: "aux leather".data := rfl
  have e3 : ("Faux Leather".data : List Char) = 'F' :: "aux Leather".data := rfl
  have ev : ("vinyl".data : List Char) = 'v' :: "inyl".data := rfl
  have eV : ("Vinyl".data : List Char) = 'V' :: "inyl".data := rfl
  unfold applyBanned pyReplace
  rw [e1, e2, e3, ev, eV]
  set d1 := replaceFuel ('f' :: "aux leather".data) ('v' :: "inyl".data) l.length l with hd1
  set d2 := replaceFuel ('F' :: "aux leather".data) ('V' :: "inyl".data) d1.length d1 with hd2
  have h1a : containsSub ('f' :: "aux leather".data) d1 = false :=
    replaceFuel_no_pat 'f' _ 'v' _ (by decide) (by decide) l.length l le_rfl
  have h1b : containsSub ('f' :: "aux leather".data) d2 = false :=
    replaceFuel_keeps_no_pat 'f' _ _ 'V' _ (by decide) (by decide) (by decide)
      d1.length d1 le_rfl h1a
  have h2b : containsSub ('F' :: "aux leather".data) d2 = false :=
    replaceFuel_no_pat 'F' _ 'V' _ (by decide) (by decide) d1.length d1 le_rfl
  refine ⟨?_, ?_, ?_⟩
  · exact replaceFuel_keeps_no_pat 'f' _ _ 'V' _ (by decide) (by decide) (by decide)
      d2.length d2 le_rfl h1b
  · exact replaceFuel_keeps_no_pat 'F' _ _ 'V' _ (by decide) (by decide) (by decide)
      d2.length d2 le_rfl h2b
  · exact replaceFuel_no_pat 'F' _ 'V' _ (by decide) (by decide) d2.length d2 le_rfl

/-! ## Claim C8: assembly -/

theorem sanitizedDesc_no_quote (resp title : String) (c : Char)
    (hc : c = '"' ∨ c = '\'') : c ∉ sanitizedDesc resp title := by
  unfold sanitizedDesc removeQuotes
  intro hmem
  have hp := (List.mem_filter.mp hmem).2
  simp only [decide_eq_true_eq] at hp
  exact hp hc

theorem substitutedDesc_no_quote (resp title : String) (c : Char)
    (hc : c = '"' ∨ c = '\'') : c ∉ substitutedDesc resp title := by
  unfold substitutedDesc applyBanned pyReplace
  intro hmem
  have hVinyl : c ∉ "Vinyl".data := by rcases hc with rfl | rfl <;> decide
  have hvinyl : c ∉ "vinyl".data := by rcases hc with rfl | rfl <;> decide
  rcases mem_replaceFuel _ _ _ _ _ hmem with h2 | hV
  · rcases mem_replaceFuel _ _ _ _ _ h2 with h3 | hV
    · rcases mem_replaceFuel _ _ _ _ _ h3 with h4 | hV
      · exact sanitizedDesc_no_quote resp title c hc h4
      · exact hvinyl hV
    · exact hVinyl hV
  · exact hVinyl hV

theorem final_desc_no_quote (resp title : String) (c : Char)
    (hc : c = '"' ∨ c = '\'') : c ∉ (parse_seo_response resp title).2.data := by
  intro hmem
  have hmem2 : c ∈ pyStrip (collapseWs (substitutedDesc resp title)) := by
    revert hmem
    unfold parse_seo_response
    by_cases h : MAX_SEO_DESCRIPTION_LENGTH <
        (pyStrip (collapseWs (substitutedDesc resp title))).length
    · simp only [h, if_true]
      intro hm
      exact List.take_subset _ _ (by simpa using hm)
    · simp only [h, if_false]
      intro hm
      simpa using hm
  rcases mem_collapseWs _ c (mem_pyStrip hmem2) with h4 | h4
  · exact substitutedDesc_no_quote resp title c hc h4
  · rcases hc with rfl | rfl <;> exact absurd h4 (by decide)

/-! `rawDesc` applied to symbolic strings is expensive to probe during
unification (nested fuel arguments); it is sealed while the `tagSafe`
facts below are assembled and re-opened immediately after. -/

section

attribute [local irreducible] rawDesc

theorem sanitizedDesc_tagSafe (resp title : String) :
    tagSafe (sanitizedDesc resp title) := by
  unfold sanitizedDesc
  exact tagSafe_removeQuotes _ (tagSafe_stripTags _)

theorem stage_tagSafe (resp title : String) :
    tagSafe (pyStrip (collapseWs (substitutedDesc resp title))) := by
  unfold substitutedDesc
  exact tagSafe_pyStrip _ (tagSafe_collapseWs _
    (tagSafe_applyBanned _ (sanitizedDesc_tagSafe resp title)))

theorem final_desc_hasTag (resp title : String) :
    hasTag (parse_seo_response resp title).2.data = false := by
  unfold parse_seo_response
  by_cases h : MAX_SEO_DESCRIPTION_LENGTH <
      (pyStrip (collapseWs (substitutedDesc resp title))).length
  · simp only [h, if_true]
    exact tagSafe_hasTag_false _ (tagSafe_take _ _ (stage_tagSafe resp title))
  · simp only [h, if_false]
    exact tagSafe_hasTag_false _ (stage_tagSafe resp title)

end

set_option maxHeartbeats 1000000 in
/-- C8 counterexample: the banned-term substitution runs *before* whitespace
collapsing, so the raw description `"faux  leather"` (two spaces) escapes
the substitution and the final returned description is exactly the banned
term `"faux leather"`. -/
theorem c8_counterexample :
    (parse_seo_response "SEO Description: faux  leather" "t").2 = "faux leather" ∧
      containsSub "faux leather".data
        (parse_seo_response "SEO Description: faux  leather" "t").2.data = true := by
  constructor <;> decide

/-- C8 (amended): the parser is a total function (never an exception) whose
returned description contains no quote characters and no substring matching
`<[^>]+>`, and never exceeds the 320-character cap (the returned title never
exceeding the 70-character cap); the banned-term substitution eliminates all
three capitalization variants of "faux leather" from the description *at the
substitution stage* (before whitespace collapsing) — but whitespace
collapsing runs afterwards and can itself re-form the banned term, as
`c8_counterexample` shows, so the three variants are not guaranteed absent
from the final output. -/
theorem c8_theorem (resp title : String) :
    ('"' ∉ (parse_seo_response resp title).2.data ∧
      '\'' ∉ (parse_seo_response resp title).2.data) ∧
    hasTag (parse_seo_response resp title).2.data = false ∧
    (parse_seo_response resp title).2.data.length ≤ MAX_SEO_DESCRIPTION_LENGTH ∧
    (parse_seo_response resp title).1.data.length ≤ MAX_SEO_TITLE_LENGTH ∧
    (containsSub "faux leather".data (substitutedDesc resp title) = false ∧
      containsSub "Faux leather".data (substitutedDesc resp title) = false ∧
      containsSub "Faux Leather".data (substitutedDesc resp title) = false) := by
  refine ⟨⟨final_desc_no_quote resp title _ (Or.inl rfl),
    final_desc_no_quote resp title _ (Or.inr rfl)⟩,
    final_desc_hasTag resp title, ?_, ?_, ?_⟩
  · unfold parse_seo_response
    by_cases h : MAX_SEO_DESCRIPTION_LENGTH <
        (pyStrip (collapseWs (substitutedDesc resp title))).length
    · simp [h]
    · simp [h]
      omega
  · unfold parse_seo_response
    by_cases h : MAX_SEO_TITLE_LENGTH < title.length
    · simp [h]
    · simp [h]
      omega
  · exact applyBanned_no_banned (sanitizedDesc resp title)
